import Mathlib

/-!
Shallow embedding of `src/src-tauri/src/docx_processor.py` (SMAIRS DOCX track
changes processor).  Strings are modelled as `List Char`; Python dictionaries
for edit records become the structure `Change`, whose optional keys
(`author`, `date`, `comment`) are `Option`s.  The nondeterministic
`datetime.now().isoformat()` is passed in explicitly as a `now` parameter.
Fallible Python code (a `KeyError` raised by `change_meta['author']` /
`change_meta['date']`) is modelled with `Except Unit`.
-/

/-- The two tracked-change marker kinds produced by the processor
(`TRACK_INS` / `TRACK_DEL`), mirroring the regex alternation `(INS|DEL)` of
`add_tracked_runs_to_paragraph` (line 141). -/
inductive Kind where
  | ins
  | del
deriving DecidableEq

/-- One edit record of the JSON `changes` list.  `apply_track_changes_to_text`
reads `id`, `type`, `position` and `content` with mandatory dictionary access
(lines 98-101) and `author`/`date`/`comment` with `.get` defaults (lines
106-108); `add_insertion_run`/`add_deletion_run` read `author`/`date` with
mandatory access (lines 185, 207).  `position` is a non-negative offset
(spec section 3). -/
structure Change where
  id : List Char
  type : List Char
  position : Nat
  content : List Char
  author : Option (List Char)
  date : Option (List Char)
  comment : Option (List Char)
deriving DecidableEq

/-- The literal tag written inside a marker for each kind. -/
def kindTag : Kind → List Char
  | Kind.ins => ("INS".data)
  | Kind.del => ("DEL".data)

/-- Opening sentinel `[TRACK_INS_{id}]` / `[TRACK_DEL_{id}]` of
`apply_track_changes_to_text` (lines 113, 118). -/
def openM (k : Kind) (id : List Char) : List Char :=
  ("[TRACK_".data) ++ kindTag k ++ ("_".data) ++ id ++ ("]".data)

/-- Closing sentinel `[/TRACK_INS_{id}]` / `[/TRACK_DEL_{id}]` of
`apply_track_changes_to_text` (lines 113, 118). -/
def closeM (k : Kind) (id : List Char) : List Char :=
  ("[/TRACK_".data) ++ kindTag k ++ ("_".data) ++ id ++ ("]".data)

/-- Descending comparison on `position` used by
`sorted(changes, key=lambda x: x['position'], reverse=True)` (line 92). -/
def posDesc (a b : Change) : Prop := b.position ≤ a.position

instance : DecidableRel posDesc := fun a b => Nat.decLe b.position a.position

/-- Python's `sorted(..., reverse=True)` is a stable descending sort; any
stable sort by `position` descending computes the same list, so we use
insertion sort with the reflexive descending comparison (ties keep
submission order, as Python's stable sort does). -/
def sortDesc (changes : List Change) : List Change :=
  List.insertionSort posDesc changes

/-- One splice step of the loop body of `apply_track_changes_to_text`
(lines 97-119): an insertion splices a marker-wrapped copy of `content` at
`position`; a deletion replaces `result[pos:pos+len(content)]` by the
marker-wrapped recorded `content`; any other `type` leaves the string
untouched.  Python slices `result[:pos]`/`result[pos:]` with `pos ≥ 0` are
`List.take`/`List.drop`. -/
def applyChange (result : List Char) (change : Change) : List Char :=
  if change.type = ("insertion".data) then
    result.take change.position ++ openM Kind.ins change.id ++ change.content ++
      closeM Kind.ins change.id ++ result.drop change.position
  else if change.type = ("deletion".data) then
    result.take change.position ++ openM Kind.del change.id ++ change.content ++
      closeM Kind.del change.id ++ result.drop (change.position + change.content.length)
  else result

/-- The function `apply_track_changes_to_text` (lines 89-121): sort by position
descending, then splice each change into the running string.  The function
returns only the annotated string (line 121); the `change_markers` side
table built at lines 104-109 is a local variable that is discarded (see
`change_markers` below). -/
def apply_track_changes_to_text (original : List Char) (changes : List Change) : List Char :=
  List.foldl applyChange original (sortDesc changes)

/-- The per-edit metadata record stored in the discarded `change_markers`
side table (lines 104-109). -/
structure RevMeta where
  author : List Char
  date : List Char
  comment : List Char
deriving DecidableEq

/-- Python dict assignment `change_markers[change_id] = ...`: replace the
binding if the key is present, else append it. -/
def setKey (t : List (List Char × RevMeta)) (k : List Char) (v : RevMeta) :
    List (List Char × RevMeta) :=
  match t with
  | [] => [(k, v)]
  | (k2, v2) :: rest => if k2 = k then (k, v) :: rest else (k2, v2) :: setKey rest k v

/-- The side table `change_markers` built during splicing (lines 95,
104-109), with the `.get` defaults `author := "SMAIRS"`, `date := now`,
`comment := ""`.  It is a local variable of `apply_track_changes_to_text`
and is never returned or read by the encoder. -/
def change_markers (changes : List Change) (now : List Char) :
    List (List Char × RevMeta) :=
  List.foldl
    (fun t c =>
      setKey t c.id
        ⟨c.author.getD ("SMAIRS".data), c.date.getD now, c.comment.getD []⟩)
    [] (sortDesc changes)

/-- The splice of `applyChange` with the sentinels stripped: insertion
contents added at their positions, a deletion's span replaced by its
recorded `content` (i.e. the deletion retained in place; when the recorded
content equals the original substring this is the identity on that span). -/
def applyPlainChange (result : List Char) (change : Change) : List Char :=
  if change.type = ("insertion".data) then
    result.take change.position ++ change.content ++ result.drop change.position
  else if change.type = ("deletion".data) then
    result.take change.position ++ change.content ++
      result.drop (change.position + change.content.length)
  else result

/-- The original text with insertions added and deletions retained in place
(spec section 3's invariant target), produced by the same
descending-position splice order as the code but without markers. -/
def applyChangesPlain (original : List Char) (changes : List Change) : List Char :=
  List.foldl applyPlainChange original (sortDesc changes)

/-- Replace every occurrence of the character `c` by the string `r`
(Python `str.replace` with a single-character pattern). -/
def replaceChar (c : Char) (r : List Char) : List Char → List Char
  | [] => []
  | x :: xs => (if x = c then r else [x]) ++ replaceChar c r xs

/-- The apostrophe character, written via its code point. -/
def apos : Char := Char.ofNat 39

/-- The function `escape_xml` (lines 223-229): the five chained `str.replace` calls, `&`
first so that entities introduced by it are not re-escaped. -/
def escape_xml (text : List Char) : List Char :=
  replaceChar apos ("&apos;".data)
    (replaceChar '"' ("&quot;".data)
      (replaceChar '>' ("&gt;".data)
        (replaceChar '<' ("&lt;".data)
          (replaceChar '&' ("&amp;".data) text))))

/-- The entity for one character: five reserved markup characters map to
their entities, every other character to itself. -/
def entityOf (c : Char) : List Char :=
  if c = '&' then ("&amp;".data)
  else if c = '<' then ("&lt;".data)
  else if c = '>' then ("&gt;".data)
  else if c = '"' then ("&quot;".data)
  else if c = apos then ("&apos;".data)
  else [c]

/-- Character-wise escaping: each character replaced by its entity. -/
def flatEscape : List Char → List Char
  | [] => []
  | c :: rest => entityOf c ++ flatEscape rest

/-- Strip a literal from the front of a string: `some rest` when the string
starts with the literal, else `none`. -/
def leadsWith : List Char → List Char → Option (List Char)
  | [], s => some s
  | _ :: _, [] => none
  | p :: ps, c :: cs => if p = c then leadsWith ps cs else none

/-- Single left-to-right pass undoing the five entities (the inverse
entity-unescaping of spec section 8's round-trip property; fuelled for
structural recursion, fuel one per character consumed). -/
def unescapeAux : Nat → List Char → List Char
  | _, [] => []
  | 0, s => s
  | fuel + 1, c :: rest =>
    match leadsWith ("&amp;".data) (c :: rest) with
    | some r => '&' :: unescapeAux fuel r
    | none =>
      match leadsWith ("&lt;".data) (c :: rest) with
      | some r => '<' :: unescapeAux fuel r
      | none =>
        match leadsWith ("&gt;".data) (c :: rest) with
        | some r => '>' :: unescapeAux fuel r
        | none =>
          match leadsWith ("&quot;".data) (c :: rest) with
          | some r => '"' :: unescapeAux fuel r
          | none =>
            match leadsWith ("&apos;".data) (c :: rest) with
            | some r => apos :: unescapeAux fuel r
            | none => c :: unescapeAux fuel rest

/-- Entity-unescaping of a whole string. -/
def unescape_xml (s : List Char) : List Char := unescapeAux s.length s

/-- A parsed piece of annotated text: plain text between markers, or one
marker pair's kind, id and enclosed text (the spec's `Segment`). -/
inductive Segment where
  | plain (text : List Char)
  | seg (k : Kind) (id : List Char) (text : List Char)
deriving DecidableEq

/-- The lazy sub-scan of the regex tail `(.*?)\[/TRACK_\1_\2\]` at a fixed
start (line 141): at each offset first try the literal closing marker
(shortest match wins, `*?` is lazy), otherwise consume one non-newline
character (`.` does not match a newline); fail at a newline or at the end. -/
def findClose (close : List Char) : List Char → Option (List Char × List Char)
  | [] =>
    match leadsWith close [] with
    | some r => some ([], r)
    | none => none
  | c :: rest =>
    match leadsWith close (c :: rest) with
    | some r => some ([], r)
    | none =>
      if c = '\n' then none
      else
        match findClose close rest with
        | some (content, r) => some (c :: content, r)
        | none => none

/-- The regex alternation `(INS|DEL)` followed by the literal `_`:
`INS_` is tried first, then `DEL_`. -/
def matchKind (s : List Char) : Option (Kind × List Char) :=
  match leadsWith ("INS_".data) s with
  | some r => some (Kind.ins, r)
  | none =>
    match leadsWith ("DEL_".data) s with
    | some r => some (Kind.del, r)
    | none => none

/-- One anchored attempt of the regex
`\[TRACK_(INS|DEL)_([^\]]+)\](.*?)\[/TRACK_\1_\2\]` (line 141) at the start
of `s`: literal `[TRACK_`, the kind alternation, a non-empty greedy id of
non-`]` characters followed by `]` (the greedy class cannot backtrack past
a different character), then the lazy content scan for the back-referenced
closing marker.  Returns kind, id, content and the rest of the string after
the match. -/
def matchAt (s : List Char) : Option (Kind × List Char × List Char × List Char) :=
  match leadsWith ("[TRACK_".data) s with
  | none => none
  | some s1 =>
    match matchKind s1 with
    | none => none
    | some (k, s2) =>
      let id := s2.takeWhile (fun c => c != ']')
      if id.isEmpty then none
      else
        match s2.dropWhile (fun c => c != ']') with
        | [] => none
        | _ :: s3 =>
          match findClose (closeM k id) s3 with
          | none => none
          | some (content, rest) => some (k, id, content, rest)

/-- Accumulate one more leading plain character onto a segment list,
merging with an existing leading plain segment (the scanner of
`add_tracked_runs_to_paragraph` emits the maximal text between matches as
one run). -/
def consPlain (c : Char) : List Segment → List Segment
  | Segment.plain t :: rest => Segment.plain (c :: t) :: rest
  | segs => Segment.plain [c] :: segs

/-- The left-to-right scan of `re.finditer` (lines 145-177): at each
position try an anchored match; on success emit the tracked segment and
resume after it, otherwise the character joins the surrounding plain run.
Fuelled (one unit per character consumed) so that the definition is
structural and computable by the kernel. -/
def scanAux : Nat → List Char → List Segment
  | _, [] => []
  | 0, _ :: _ => []
  | fuel + 1, c :: rest =>
    match matchAt (c :: rest) with
    | some (k, id, content, rest') => Segment.seg k id content :: scanAux fuel rest'
    | none => consPlain c (scanAux fuel rest)

/-- MarkupParser: the segment sequence recovered from an annotated text by
the marker scan of `add_tracked_runs_to_paragraph` (lines 136-177).  Empty
plain runs are never emitted (the code's `if normal_text:` checks), and the
text between two matches forms a single plain segment. -/
def markupParse (s : List Char) : List Segment := scanAux s.length s

/-- The text of one segment with its edit wrapping (markers) stripped. -/
def stripSeg : Segment → List Char
  | Segment.plain t => t
  | Segment.seg _ _ t => t

/-- Concatenation of all segment texts with edit wrapping stripped. -/
def stripSegs : List Segment → List Char
  | [] => []
  | s :: rest => stripSeg s ++ stripSegs rest

/-- One emitted run of the paragraph tree: a plain run, or a revision
fragment `w:ins`/`w:del` carrying the fields interpolated into the OOXML
f-strings of `add_insertion_run` (lines 184-190) and `add_deletion_run`
(lines 206-212): the id, the escaped author, the date (not escaped) and the
escaped content. -/
inductive Run where
  | plainRun (text : List Char)
  | revRun (k : Kind) (id : List Char) (author : List Char) (date : List Char)
      (content : List Char)
deriving DecidableEq

/-- Metadata lookup and revision-fragment emission for one regex match
(lines 156-169 with 179-199/201-221): `next((c for c in changes if c['id']
== change_id), None)` is `List.find?`; a miss substitutes the default
`{author: 'SMAIRS', date: now, comment: ''}` dict; a hit hands the raw
change record to `add_insertion_run`/`add_deletion_run`, whose f-string
evaluates `escape_xml(change_meta['author'])` and then
`change_meta['date']` with mandatory access — a record lacking either key
raises `KeyError` (`Except.error ()`). -/
def encodeMatch (changes : List Change) (now : List Char) (k : Kind)
    (change_id content : List Char) : Except Unit Run :=
  match changes.find? (fun c => c.id == change_id) with
  | none =>
    Except.ok (Run.revRun k change_id (escape_xml ("SMAIRS".data)) now
      (escape_xml content))
  | some c =>
    match c.author with
    | none => Except.error ()
    | some a =>
      match c.date with
      | none => Except.error ()
      | some d => Except.ok (Run.revRun k change_id (escape_xml a) d (escape_xml content))

/-- RevisionEncoder over a segment sequence: plain segments become plain
runs (skipped when empty, the code's `if normal_text:`), tracked segments
become revision fragments via `encodeMatch`; the first `KeyError` aborts
the document (Python propagates the exception). -/
def encodeSegments (changes : List Change) (now : List Char) :
    List Segment → Except Unit (List Run)
  | [] => Except.ok []
  | Segment.plain t :: rest =>
    match encodeSegments changes now rest with
    | Except.error e => Except.error e
    | Except.ok rs => Except.ok (if t.isEmpty then rs else Run.plainRun t :: rs)
  | Segment.seg k id content :: rest =>
    match encodeMatch changes now k id content with
    | Except.error e => Except.error e
    | Except.ok r =>
      match encodeSegments changes now rest with
      | Except.error e => Except.error e
      | Except.ok rs => Except.ok (r :: rs)

/-- Parse one paragraph's text and encode its segments
(`add_tracked_runs_to_paragraph`, lines 136-177). -/
def encodeParagraph (changes : List Change) (now : List Char) (p : List Char) :
    Except Unit (List Run) :=
  encodeSegments changes now (markupParse p)

/-- Python `text.split('\n\n')` (line 127): split on each non-overlapping
occurrence of two consecutive line breaks, scanning left to right; `acc`
holds the reversed characters of the piece being built. -/
def splitOn2NL (acc : List Char) : List Char → List (List Char)
  | '\n' :: '\n' :: rest => acc.reverse :: splitOn2NL [] rest
  | c :: rest => splitOn2NL (c :: acc) rest
  | [] => [acc.reverse]

/-- Python `c.isspace()`-style whitespace as stripped by `str.strip()`
(ASCII subset; the claims do not exercise Unicode spaces). -/
def isPySpace (c : Char) : Bool :=
  (c == ' ') || (c == '\t') || (c == '\n') || (c == '\r') ||
    (c == Char.ofNat 11) || (c == Char.ofNat 12)

/-- Python `not para_text.strip()` (line 130): true exactly when every character
is whitespace (in particular for the empty paragraph). -/
def stripEmptyPy (s : List Char) : Bool := s.all isPySpace

/-- The paragraph loop of `add_tracked_content` (lines 129-134): paragraphs
whose stripped text is empty are skipped (`continue`) and produce no
paragraph node; the others are parsed and encoded in order. -/
def encodeParasSkip (changes : List Change) (now : List Char) :
    List (List Char) → Except Unit (List (List Run))
  | [] => Except.ok []
  | p :: ps =>
    if stripEmptyPy p then encodeParasSkip changes now ps
    else
      match encodeParagraph changes now p with
      | Except.error e => Except.error e
      | Except.ok runs =>
        match encodeParasSkip changes now ps with
        | Except.error e => Except.error e
        | Except.ok rest => Except.ok (runs :: rest)

/-- The same paragraph encoding without the skip test (used to state the
drop-empty-paragraphs behaviour as a filter). -/
def encodeParas (changes : List Change) (now : List Char) :
    List (List Char) → Except Unit (List (List Run))
  | [] => Except.ok []
  | p :: ps =>
    match encodeParagraph changes now p with
    | Except.error e => Except.error e
    | Except.ok runs =>
      match encodeParas changes now ps with
      | Except.error e => Except.error e
      | Except.ok rest => Except.ok (runs :: rest)

/-- The function `add_tracked_content` (lines 123-134): split the text it receives on
blank-line boundaries and encode each non-blank paragraph. -/
def add_tracked_content (changes : List Change) (now : List Char)
    (text : List Char) : Except Unit (List (List Run)) :=
  encodeParasSkip changes now (splitOn2NL [] text)

/-- The content pipeline of `create_track_changes_document` (lines 39-43):
the annotated text produced by `apply_track_changes_to_text` — not the
raw text as it was before splicing — is handed to `add_tracked_content`.  Document
settings, core properties and file I/O are external collaborators and are
not modelled. -/
def create_track_changes_document (original : List Char) (changes : List Change)
    (now : List Char) : Except Unit (List (List Run)) :=
  add_tracked_content changes now (apply_track_changes_to_text original changes)

/-- A concrete change record with absent optional keys (author/date/comment
missing from the JSON dict). -/
def mkChange (id ty : String) (pos : Nat) (content : String) : Change :=
  ⟨id.data, ty.data, pos, content.data, none, none, none⟩

/-- A concrete change record carrying author and date. -/
def mkChangeMeta (id ty : String) (pos : Nat) (content author date : String) : Change :=
  ⟨id.data, ty.data, pos, content.data, some author.data, some date.data, none⟩

/-- Hygiene of a marker id for the scanner's grammar: non-empty (the regex
class `[^\]]+` needs at least one character) and free of `]`, `[` and
newline, so the spliced marker re-parses as itself. -/
def IdOk (id : List Char) : Prop :=
  id ≠ [] ∧ ∀ c ∈ id, c ≠ ']' ∧ c ≠ '[' ∧ c ≠ '\n'

instance : DecidablePred IdOk := fun id =>
  decidable_of_iff (id ≠ [] ∧ ∀ c ∈ id, c ≠ ']' ∧ c ≠ '[' ∧ c ≠ '\n') Iff.rfl

/-- Hygiene of one change record for the splice/parse round trip: a known
`type`, a scanner-safe id, and content free of `[` and of newline. -/
def ChangeOk (e : Change) : Prop :=
  (e.type = ("insertion".data) ∨ e.type = ("deletion".data)) ∧
    IdOk e.id ∧ ('[' ∉ e.content) ∧ ('\n' ∉ e.content)

instance : DecidablePred ChangeOk := fun e =>
  decidable_of_iff
    ((e.type = ("insertion".data) ∨ e.type = ("deletion".data)) ∧
      IdOk e.id ∧ ('[' ∉ e.content) ∧ ('\n' ∉ e.content)) Iff.rfl

/-- The end of the original-text span consumed by a change: position plus
recorded-content length for a deletion (the replaced span), bare position
otherwise. -/
def cutOf (e : Change) : Nat :=
  if e.type = ("deletion".data) then e.position + e.content.length else e.position

/-- The marker kind a change splices. -/
def kindOf (e : Change) : Kind :=
  if e.type = ("insertion".data) then Kind.ins else Kind.del

/-- Non-overlap and in-bounds for a position-descending change list against
a bound: the head's span ends under the bound and the tail's spans end
under the head's start.  For the descending-sorted list this says exactly
that the edit spans are pairwise disjoint and lie inside the text. -/
def DescFits : List Change → Nat → Prop
  | [], _ => True
  | e :: ds, b => cutOf e ≤ b ∧ DescFits ds e.position

instance instDecDescFits : (ds : List Change) → (b : Nat) → Decidable (DescFits ds b)
  | [], _ => Decidable.isTrue trivial
  | e :: ds, b =>
    match Nat.decLe (cutOf e) b, instDecDescFits ds e.position with
    | Decidable.isTrue h1, Decidable.isTrue h2 => Decidable.isTrue ⟨h1, h2⟩
    | Decidable.isFalse h1, _ => Decidable.isFalse (fun hh => h1 hh.1)
    | _, Decidable.isFalse h2 => Decidable.isFalse (fun hh => h2 hh.2)

/-- Structured form of an annotated text: plain pieces of the original
interleaved with marker-wrapped edit blocks. -/
inductive Chunk where
  | plainC (t : List Char)
  | editC (k : Kind) (id : List Char) (content : List Char)
deriving DecidableEq

/-- Flatten one chunk back to annotated text. -/
def renderChunk : Chunk → List Char
  | Chunk.plainC t => t
  | Chunk.editC k id content => openM k id ++ content ++ closeM k id

/-- Flatten a chunk list back to annotated text. -/
def renderChunks : List Chunk → List Char
  | [] => []
  | c :: rest => renderChunk c ++ renderChunks rest

/-- One chunk with markers stripped. -/
def stripChunk : Chunk → List Char
  | Chunk.plainC t => t
  | Chunk.editC _ _ content => content

/-- A chunk list with markers stripped. -/
def stripChunks : List Chunk → List Char
  | [] => []
  | c :: rest => stripChunk c ++ stripChunks rest

/-- Scanner hygiene of one chunk: plain pieces contain no `[`; edit blocks
carry an `IdOk` id and bracket-free, newline-free content. -/
def ChunkOk : Chunk → Prop
  | Chunk.plainC t => '[' ∉ t
  | Chunk.editC _ id content => IdOk id ∧ '[' ∉ content ∧ '\n' ∉ content

/-- Chunk decomposition of the annotated text produced by splicing a
position-descending change list into `orig`: the head (highest) change
splits off its block and the original tail, the rest recurse into the
original prefix. -/
def chunksOf (orig : List Char) : List Change → List Chunk
  | [] => [Chunk.plainC orig]
  | e :: ds =>
    chunksOf (orig.take e.position) ds ++
      [Chunk.editC (kindOf e) e.id e.content, Chunk.plainC (orig.drop (cutOf e))]

/-- Prepend plain text onto a segment list, merging with a leading plain
segment; empty text prepends nothing. -/
def prependPlain (t : List Char) (segs : List Segment) : List Segment :=
  match t with
  | [] => segs
  | _ :: _ =>
    match segs with
    | Segment.plain u :: rest => Segment.plain (t ++ u) :: rest
    | _ => Segment.plain t :: segs

lemma leadsWith_some {p s r : List Char} (h : leadsWith p s = some r) : s = p ++ r := by
  induction p generalizing s with
  | nil => simpa [leadsWith] using h
  | cons x xs ih =>
    cases s with
    | nil => simp [leadsWith] at h
    | cons c cs =>
      by_cases hx : x = c
      · subst hx
        simp only [leadsWith, if_pos rfl] at h
        simpa using ih h
      · simp [leadsWith, hx] at h

lemma leadsWith_append_self (p r : List Char) : leadsWith p (p ++ r) = some r := by
  induction p with
  | nil => simp [leadsWith]
  | cons x xs ih => simp [leadsWith, ih]

lemma replaceChar_append (c : Char) (r a b : List Char) :
    replaceChar c r (a ++ b) = replaceChar c r a ++ replaceChar c r b := by
  induction a with
  | nil => simp [replaceChar]
  | cons x xs ih => simp [replaceChar, ih, List.append_assoc]

lemma escape_xml_append (a b : List Char) :
    escape_xml (a ++ b) = escape_xml a ++ escape_xml b := by
  simp [escape_xml, replaceChar_append]

lemma escape_xml_single (c : Char) : escape_xml [c] = entityOf c := by
  by_cases h1 : c = '&'
  · subst h1; decide
  by_cases h2 : c = '<'
  · subst h2; decide
  by_cases h3 : c = '>'
  · subst h3; decide
  by_cases h4 : c = '"'
  · subst h4; decide
  by_cases h5 : c = apos
  · subst h5; decide
  · simp [escape_xml, replaceChar, entityOf, h1, h2, h3, h4, h5]

lemma escape_xml_cons (c : Char) (s : List Char) :
    escape_xml (c :: s) = entityOf c ++ escape_xml s := by
  have h : (c :: s) = [c] ++ s := rfl
  rw [h, escape_xml_append, escape_xml_single]

lemma escape_xml_eq_flatEscape (s : List Char) : escape_xml s = flatEscape s := by
  induction s with
  | nil => rfl
  | cons c rest ih => rw [escape_xml_cons, flatEscape, ih]

lemma unescapeAux_fuel : ∀ (f1 f2 : Nat) (s : List Char),
    s.length ≤ f1 → s.length ≤ f2 → unescapeAux f1 s = unescapeAux f2 s := by
  intro f1
  induction f1 with
  | zero =>
    intro f2 s h1 _
    cases s with
    | nil => cases f2 <;> rfl
    | cons c rest => simp at h1
  | succ f ih =>
    intro f2 s h1 h2
    cases s with
    | nil => cases f2 <;> rfl
    | cons c rest =>
      cases f2 with
      | zero => simp at h2
      | succ f2' =>
        simp only [unescapeAux]
        have hlen : rest.length + 1 ≤ f + 1 := by simpa using h1
        have hlen2 : rest.length + 1 ≤ f2' + 1 := by simpa using h2
        split
        next r hr =>
          have := leadsWith_some hr
          have hr5 : r.length + 5 = rest.length + 1 := by
            have := congrArg List.length this
            simpa using this.symm
          have : r.length ≤ f := by omega
          have : unescapeAux f r = unescapeAux f2' r := ih f2' r this (by omega)
          rw [this]
        next =>
          split
          next r hr =>
            have := leadsWith_some hr
            have hr4 : r.length + 4 = rest.length + 1 := by
              have := congrArg List.length this
              simpa using this.symm
            rw [ih f2' r (by omega) (by omega)]
          next =>
            split
            next r hr =>
              have := leadsWith_some hr
              have hr4 : r.length + 4 = rest.length + 1 := by
                have := congrArg List.length this
                simpa using this.symm
              rw [ih f2' r (by omega) (by omega)]
            next =>
              split
              next r hr =>
                have := leadsWith_some hr
                have hr6 : r.length + 6 = rest.length + 1 := by
                  have := congrArg List.length this
                  simpa using this.symm
                rw [ih f2' r (by omega) (by omega)]
              next =>
                split
                next r hr =>
                  have := leadsWith_some hr
                  have hr6 : r.length + 6 = rest.length + 1 := by
                    have := congrArg List.length this
                    simpa using this.symm
                  rw [ih f2' r (by omega) (by omega)]
                next =>
                  rw [ih f2' rest (by omega) (by omega)]

lemma leadsWith_cons_ne {a c : Char} (p s : List Char) (h : a ≠ c) :
    leadsWith (a :: p) (c :: s) = none := by
  simp [leadsWith, h]

lemma unescapeAux_entity (c : Char) (T : List Char) :
    unescapeAux (entityOf c ++ T).length (entityOf c ++ T) =
      c :: unescapeAux T.length T := by
  by_cases h1 : c = '&'
  · subst h1
    have e1 : entityOf '&' ++ T = '&' :: 'a' :: 'm' :: 'p' :: ';' :: T := rfl
    rw [e1]
    have hl : leadsWith ("&amp;".data) ('&' :: 'a' :: 'm' :: 'p' :: ';' :: T) = some T :=
      leadsWith_append_self ("&amp;".data) T
    simp only [List.length_cons, unescapeAux, hl]
    exact congrArg (fun x => '&' :: x) (unescapeAux_fuel _ _ T (by omega) (by omega))
  by_cases h2 : c = '<'
  · subst h2
    have e1 : entityOf '<' ++ T = '&' :: 'l' :: 't' :: ';' :: T := rfl
    rw [e1]
    have hno : leadsWith ("&amp;".data) ('&' :: 'l' :: 't' :: ';' :: T) = none := by
      simp [leadsWith]
    have hl : leadsWith ("&lt;".data) ('&' :: 'l' :: 't' :: ';' :: T) = some T :=
      leadsWith_append_self ("&lt;".data) T
    simp only [List.length_cons, unescapeAux, hno, hl]
    exact congrArg (fun x => '<' :: x) (unescapeAux_fuel _ _ T (by omega) (by omega))
  by_cases h3 : c = '>'
  · subst h3
    have e1 : entityOf '>' ++ T = '&' :: 'g' :: 't' :: ';' :: T := rfl
    rw [e1]
    have hno1 : leadsWith ("&amp;".data) ('&' :: 'g' :: 't' :: ';' :: T) = none := by
      simp [leadsWith]
    have hno2 : leadsWith ("&lt;".data) ('&' :: 'g' :: 't' :: ';' :: T) = none := by
      simp [leadsWith]
    have hl : leadsWith ("&gt;".data) ('&' :: 'g' :: 't' :: ';' :: T) = some T :=
      leadsWith_append_self ("&gt;".data) T
    simp only [List.length_cons, unescapeAux, hno1, hno2, hl]
    exact congrArg (fun x => '>' :: x) (unescapeAux_fuel _ _ T (by omega) (by omega))
  by_cases h4 : c = '"'
  · subst h4
    have e1 : entityOf '"' ++ T = '&' :: 'q' :: 'u' :: 'o' :: 't' :: ';' :: T := rfl
    rw [e1]
    have hno1 : leadsWith ("&amp;".data) ('&' :: 'q' :: 'u' :: 'o' :: 't' :: ';' :: T) = none := by
      simp [leadsWith]
    have hno2 : leadsWith ("&lt;".data) ('&' :: 'q' :: 'u' :: 'o' :: 't' :: ';' :: T) = none := by
      simp [leadsWith]
    have hno3 : leadsWith ("&gt;".data) ('&' :: 'q' :: 'u' :: 'o' :: 't' :: ';' :: T) = none := by
      simp [leadsWith]
    have hl : leadsWith ("&quot;".data) ('&' :: 'q' :: 'u' :: 'o' :: 't' :: ';' :: T) = some T :=
      leadsWith_append_self ("&quot;".data) T
    simp only [List.length_cons, unescapeAux, hno1, hno2, hno3, hl]
    exact congrArg (fun x => '"' :: x) (unescapeAux_fuel _ _ T (by omega) (by omega))
  by_cases h5 : c = apos
  · subst h5
    have e1 : entityOf apos ++ T = '&' :: 'a' :: 'p' :: 'o' :: 's' :: ';' :: T := rfl
    rw [e1]
    have hno1 : leadsWith ("&amp;".data) ('&' :: 'a' :: 'p' :: 'o' :: 's' :: ';' :: T) = none := by
      simp [leadsWith]
    have hno2 : leadsWith ("&lt;".data) ('&' :: 'a' :: 'p' :: 'o' :: 's' :: ';' :: T) = none := by
      simp [leadsWith]
    have hno3 : leadsWith ("&gt;".data) ('&' :: 'a' :: 'p' :: 'o' :: 's' :: ';' :: T) = none := by
      simp [leadsWith]
    have hno4 : leadsWith ("&quot;".data) ('&' :: 'a' :: 'p' :: 'o' :: 's' :: ';' :: T) = none := by
      simp [leadsWith]
    have hl : leadsWith ("&apos;".data) ('&' :: 'a' :: 'p' :: 'o' :: 's' :: ';' :: T) = some T :=
      leadsWith_append_self ("&apos;".data) T
    simp only [List.length_cons, unescapeAux, hno1, hno2, hno3, hno4, hl]
    exact congrArg (fun x => apos :: x) (unescapeAux_fuel _ _ T (by omega) (by omega))
  · have e1 : entityOf c ++ T = c :: T := by simp [entityOf, h1, h2, h3, h4, h5]
    rw [e1]
    have hno1 : leadsWith ("&amp;".data) (c :: T) = none :=
      leadsWith_cons_ne _ _ (fun hc => h1 (by simpa using hc.symm))
    have hno2 : leadsWith ("&lt;".data) (c :: T) = none :=
      leadsWith_cons_ne _ _ (fun hc => h1 (by simpa using hc.symm))
    have hno3 : leadsWith ("&gt;".data) (c :: T) = none :=
      leadsWith_cons_ne _ _ (fun hc => h1 (by simpa using hc.symm))
    have hno4 : leadsWith ("&quot;".data) (c :: T) = none :=
      leadsWith_cons_ne _ _ (fun hc => h1 (by simpa using hc.symm))
    have hno5 : leadsWith ("&apos;".data) (c :: T) = none :=
      leadsWith_cons_ne _ _ (fun hc => h1 (by simpa using hc.symm))
    simp only [List.length_cons, unescapeAux, hno1, hno2, hno3, hno4, hno5]

lemma unescape_flatEscape (s : List Char) : unescape_xml (flatEscape s) = s := by
  induction s with
  | nil => rfl
  | cons c rest ih =>
    show unescapeAux (flatEscape (c :: rest)).length (flatEscape (c :: rest)) = c :: rest
    rw [show flatEscape (c :: rest) = entityOf c ++ flatEscape rest from rfl]
    rw [unescapeAux_entity]
    exact congrArg (fun x => c :: x) ih

/-- C4: `escape_xml` replaces every occurrence of each of the five reserved
markup characters by its entity (it acts character-wise, equal to
`flatEscape`), and the inverse entity-unescaping applied to its output
returns the original string exactly: escaping round-trips. -/
theorem claim_C4_escape_roundtrip (s : List Char) :
    escape_xml s = flatEscape s ∧ unescape_xml (escape_xml s) = s := by
  refine ⟨escape_xml_eq_flatEscape s, ?_⟩
  rw [escape_xml_eq_flatEscape]
  exact unescape_flatEscape s

/-- C8: applying an empty edit list is the identity transform —
`apply_track_changes_to_text` sorts the empty list and folds over nothing,
returning `original` unchanged. -/
theorem claim_C8_empty_edits_identity (original : List Char) :
    apply_track_changes_to_text original [] = original := rfl

/-- C3 (code bug, spec section 7 concedes it): a Deletion whose recorded
content `"x"` differs from the original substring `"a"` at position 0 is
not rejected — `apply_track_changes_to_text` raises nothing, splices the
marker-wrapped recorded content over the span and returns the annotated
string. -/
theorem claim_C3_mismatched_deletion_spliced :
    List.take (("x".data).length) (List.drop 0 ("ab".data)) ≠ ("x".data) ∧
      apply_track_changes_to_text ("ab".data) [mkChange ("1") ("deletion") 0 ("x")] =
        ("[TRACK_DEL_1]x[/TRACK_DEL_1]b".data) := by
  decide

/-- C5: when an edit id is absent from the submitted change list, the
metadata lookup misses and `encodeMatch` does not fail: it substitutes the
default `{author: "SMAIRS", timestamp: now, comment: ""}` and emits a
revision fragment whose author field is the non-empty `"SMAIRS"`
(`escape_xml` leaves `"SMAIRS"` unchanged). -/
theorem claim_C5_metadata_miss_defaults (changes : List Change) (now : List Char)
    (k : Kind) (id content : List Char)
    (h : changes.find? (fun c => c.id == id) = none) :
    encodeMatch changes now k id content =
      Except.ok (Run.revRun k id ("SMAIRS".data) now (escape_xml content)) ∧
      ("SMAIRS".data) ≠ [] := by
  constructor
  · simp only [encodeMatch, h]
    rw [show escape_xml ("SMAIRS".data) = ("SMAIRS".data) from by decide]
  · decide

/-- Witness for C5 at a concrete miss: the only change has id "2", the
segment id is "1". -/
theorem claim_C5_witness :
    (([mkChangeMeta ("2") ("insertion") 0 ("y") ("A") ("D")] : List Change).find?
        (fun c => c.id == ("1".data)) = none) ∧
      encodeMatch [mkChangeMeta ("2") ("insertion") 0 ("y") ("A") ("D")] ("now".data) Kind.ins
          ("1".data) ("x<y".data) =
        Except.ok (Run.revRun Kind.ins ("1".data) ("SMAIRS".data) ("now".data)
          (escape_xml ("x<y".data))) :=
  ⟨by decide,
    (claim_C5_metadata_miss_defaults [mkChangeMeta ("2") ("insertion") 0 ("y") ("A") ("D")]
      ("now".data) Kind.ins ("1".data) ("x<y".data) (by decide)).1⟩

/-- C9: when the raw change record matching a segment's id is present but
lacks the `author` or the `date` key, the encoder raises `KeyError`
(`Except.error ()`) instead of substituting the default: the defaulted
`change_markers` side table of `apply_track_changes_to_text` is a discarded
local (the function returns only the string), and
`add_insertion_run`/`add_deletion_run` look `change_meta['author']` and
`change_meta['date']` up directly on the raw record. -/
theorem claim_C9_missing_keys_keyerror (changes : List Change) (now : List Char)
    (k : Kind) (id content : List Char) (c : Change)
    (hfind : changes.find? (fun x => x.id == id) = some c)
    (hmiss : c.author = none ∨ c.date = none) :
    encodeMatch changes now k id content = Except.error () := by
  simp only [encodeMatch, hfind]
  rcases hmiss with h | h
  · rw [h]
  · rcases ha : c.author with _ | a
    · rfl
    · rw [h]

/-- Witness for C9: a change with id "1" and no author/date keys is found,
and encoding errors. -/
theorem claim_C9_witness :
    (([mkChange ("1") ("insertion") 0 ("x")] : List Change).find?
        (fun x => x.id == ("1".data)) = some (mkChange ("1") ("insertion") 0 ("x"))) ∧
      (mkChange ("1") ("insertion") 0 ("x")).author = none ∧
      encodeMatch [mkChange ("1") ("insertion") 0 ("x")] ("now".data) Kind.del ("1".data)
          ("t".data) = Except.error () :=
  ⟨by decide, by decide,
    claim_C9_missing_keys_keyerror [mkChange ("1") ("insertion") 0 ("x")] ("now".data)
      Kind.del ("1".data) ("t".data) (mkChange ("1") ("insertion") 0 ("x")) (by decide)
      (Or.inl (by decide))⟩

/-- C2: for edit batches with pairwise distinct positions the annotated
text is permutation-independent: the descending stable sort of either
submission order yields the same strictly descending list, so the splice
fold produces the same string. -/
theorem claim_C2_order_independence (text : List Char) (cs cs' : List Change)
    (hperm : List.Perm cs cs') (hnodup : (cs.map Change.position).Nodup) :
    apply_track_changes_to_text text cs = apply_track_changes_to_text text cs' := by
  have hp1 : List.Perm (sortDesc cs) cs := List.perm_insertionSort posDesc cs
  have hp2 : List.Perm (sortDesc cs') cs' := List.perm_insertionSort posDesc cs'
  have hp : List.Perm (sortDesc cs) (sortDesc cs') := (hp1.trans hperm).trans hp2.symm
  haveI : IsTotal Change posDesc := ⟨fun a b => Nat.le_total b.position a.position⟩
  haveI : IsTrans Change posDesc := ⟨fun _ _ _ hab hbc => Nat.le_trans hbc hab⟩
  have hs1 : List.Sorted posDesc (sortDesc cs) := List.sorted_insertionSort posDesc cs
  have hs2 : List.Sorted posDesc (sortDesc cs') := List.sorted_insertionSort posDesc cs'
  have hsym : ∀ {x y : Change}, x.position ≠ y.position → y.position ≠ x.position :=
    fun h => h.symm
  have hne0 : List.Pairwise (fun a b : Change => a.position ≠ b.position) cs := by
    rw [← List.pairwise_map]; exact hnodup
  have hne1 : List.Pairwise (fun a b : Change => a.position ≠ b.position) (sortDesc cs) :=
    (List.Perm.pairwise_iff hsym hp1).mpr hne0
  have hne2 : List.Pairwise (fun a b : Change => a.position ≠ b.position) (sortDesc cs') := by
    have hne0' : List.Pairwise (fun a b : Change => a.position ≠ b.position) cs' :=
      (List.Perm.pairwise_iff hsym hperm).mp hne0
    exact (List.Perm.pairwise_iff hsym hp2).mpr hne0'
  have hstrict1 : List.Pairwise (fun a b : Change => b.position < a.position) (sortDesc cs) :=
    (List.Pairwise.and hs1 hne1).imp
      (fun h => Nat.lt_of_le_of_ne h.1 (fun he => h.2 he.symm))
  have hstrict2 : List.Pairwise (fun a b : Change => b.position < a.position) (sortDesc cs') :=
    (List.Pairwise.and hs2 hne2).imp
      (fun h => Nat.lt_of_le_of_ne h.1 (fun he => h.2 he.symm))
  haveI : IsAntisymm Change (fun a b : Change => b.position < a.position) :=
    ⟨fun _ _ h1 h2 => absurd (Nat.lt_trans h2 h1) (Nat.lt_irrefl _)⟩
  have hsorteq : sortDesc cs = sortDesc cs' :=
    List.eq_of_perm_of_sorted hp hstrict1 hstrict2
  show List.foldl applyChange text (sortDesc cs) = List.foldl applyChange text (sortDesc cs')
  rw [hsorteq]

/-- Witness for C2 (spec section 8, Scenario C): a Deletion at position 0
and an Insertion at position 10, submitted in either order, produce the
same annotated text. -/
theorem claim_C2_witness :
    List.Perm [mkChange ("d") ("deletion") 0 ("Hello "), mkChange ("i") ("insertion") 10 ("!!")]
        [mkChange ("i") ("insertion") 10 ("!!"), mkChange ("d") ("deletion") 0 ("Hello ")] ∧
      (([mkChange ("d") ("deletion") 0 ("Hello "), mkChange ("i") ("insertion") 10 ("!!")] :
            List Change).map Change.position).Nodup ∧
      apply_track_changes_to_text ("Hello cruel world".data)
          [mkChange ("d") ("deletion") 0 ("Hello "), mkChange ("i") ("insertion") 10 ("!!")] =
        apply_track_changes_to_text ("Hello cruel world".data)
          [mkChange ("i") ("insertion") 10 ("!!"), mkChange ("d") ("deletion") 0 ("Hello ")] :=
  ⟨List.Perm.swap _ _ _, by decide,
    claim_C2_order_independence ("Hello cruel world".data)
      [mkChange ("d") ("deletion") 0 ("Hello "), mkChange ("i") ("insertion") 10 ("!!")]
      [mkChange ("i") ("insertion") 10 ("!!"), mkChange ("d") ("deletion") 0 ("Hello ")]
      (List.Perm.swap _ _ _) (by decide)⟩

lemma dropWhile_head_false {p : Char → Bool} {l : List Char} {x : Char} {xs : List Char}
    (h : List.dropWhile p l = x :: xs) : p x = false := by
  induction l with
  | nil => simp [List.dropWhile] at h
  | cons a l' ih =>
    rw [List.dropWhile_cons] at h
    by_cases hp : p a = true
    · rw [if_pos hp] at h; exact ih h
    · rw [if_neg hp] at h
      cases h
      simpa using hp

lemma findClose_some {close : List Char} : ∀ {s content r : List Char},
    findClose close s = some (content, r) → s = content ++ close ++ r := by
  intro s
  induction s with
  | nil =>
    intro content r h
    rw [findClose] at h
    cases hl : leadsWith close [] with
    | none => rw [hl] at h; cases h
    | some r' =>
      rw [hl] at h
      cases h
      simpa using leadsWith_some hl
  | cons c rest ih =>
    intro content r h
    rw [findClose] at h
    cases hl : leadsWith close (c :: rest) with
    | some r' =>
      rw [hl] at h
      cases h
      simpa using leadsWith_some hl
    | none =>
      rw [hl] at h
      by_cases hc : c = '\n'
      · rw [if_pos hc] at h; cases h
      · rw [if_neg hc] at h
        cases hf : findClose close rest with
        | none => rw [hf] at h; cases h
        | some pr =>
          obtain ⟨ct, r'⟩ := pr
          rw [hf] at h
          cases h
          have := ih hf
          simp [this]

lemma matchKind_some {s1 : List Char} {k : Kind} {s2 : List Char}
    (h : matchKind s1 = some (k, s2)) :
    s1 = kindTag k ++ ("_".data) ++ s2 := by
  rw [matchKind] at h
  split at h
  next r hi =>
    cases h
    simpa [kindTag] using leadsWith_some hi
  next hi =>
    split at h
    next r hd =>
      cases h
      simpa [kindTag] using leadsWith_some hd
    next hd => cases h

lemma matchAt_some_decomp {s : List Char} {k : Kind} {id content rest' : List Char}
    (h : matchAt s = some (k, id, content, rest')) :
    s = openM k id ++ content ++ closeM k id ++ rest' := by
  rw [matchAt] at h
  split at h
  · cases h
  next s1 h1 =>
    split at h
    · cases h
    next k' s2 h2 =>
      dsimp only at h
      split at h
      · cases h
      next hne =>
        split at h
        · cases h
        next x s3 h3 =>
          split at h
          · cases h
          next ct r h4 =>
            cases h
            have hx : x = ']' := by
              have := dropWhile_head_false h3
              simpa using this
            subst hx
            set tw := List.takeWhile (fun c => c != ']') s2 with htw
            have hs2 := (List.takeWhile_append_dropWhile (fun c => c != ']') s2).symm
            rw [h3, ← htw] at hs2
            have hs3 := findClose_some h4
            have hs1 := matchKind_some h2
            have hs := leadsWith_some h1
            rw [hs, hs1, hs2, hs3]
            simp [openM, closeM]

lemma matchAt_some_length {s : List Char} {k : Kind} {id content rest' : List Char}
    (h : matchAt s = some (k, id, content, rest')) : rest'.length < s.length := by
  have hd := matchAt_some_decomp h
  have := congrArg List.length hd
  simp only [List.length_append] at this
  have hop : 0 < (openM k id).length := by
    simp [openM]
  omega

lemma scanAux_fuel : ∀ (f1 f2 : Nat) (s : List Char), s.length ≤ f1 → s.length ≤ f2 →
    scanAux f1 s = scanAux f2 s := by
  intro f1
  induction f1 with
  | zero =>
    intro f2 s h1 _
    cases s with
    | nil => cases f2 <;> rfl
    | cons c rest => simp at h1
  | succ f ih =>
    intro f2 s h1 h2
    cases s with
    | nil => cases f2 <;> rfl
    | cons c rest =>
      cases f2 with
      | zero => simp at h2
      | succ f2' =>
        simp only [scanAux]
        cases hm : matchAt (c :: rest) with
        | none =>
          have hr : rest.length ≤ f := by
            have : rest.length + 1 ≤ f + 1 := by simpa using h1
            omega
          have hr2 : rest.length ≤ f2' := by
            have : rest.length + 1 ≤ f2' + 1 := by simpa using h2
            omega
          show consPlain c (scanAux f rest) = consPlain c (scanAux f2' rest)
          exact congrArg (consPlain c) (ih f2' rest hr hr2)
        | some v =>
          obtain ⟨k, id, content, rest'⟩ := v
          have hlen := matchAt_some_length hm
          simp only [List.length_cons] at hlen
          have hb1 : rest'.length ≤ f := by
            have : rest.length + 1 ≤ f + 1 := by simpa using h1
            omega
          have hb2 : rest'.length ≤ f2' := by
            have : rest.length + 1 ≤ f2' + 1 := by simpa using h2
            omega
          show Segment.seg k id content :: scanAux f rest' =
            Segment.seg k id content :: scanAux f2' rest'
          exact congrArg (fun x => Segment.seg k id content :: x) (ih f2' rest' hb1 hb2)

lemma markupParse_cons_none {c : Char} {rest : List Char}
    (h : matchAt (c :: rest) = none) :
    markupParse (c :: rest) = consPlain c (markupParse rest) := by
  show scanAux (c :: rest).length (c :: rest) = _
  simp only [List.length_cons, scanAux, h]
  rfl

lemma markupParse_cons_some {s : List Char} {k : Kind} {id content rest' : List Char}
    (h : matchAt s = some (k, id, content, rest')) :
    markupParse s = Segment.seg k id content :: markupParse rest' := by
  cases s with
  | nil => simp [matchAt, leadsWith] at h
  | cons c rest =>
    have hlen := matchAt_some_length h
    simp only [List.length_cons] at hlen
    show scanAux (c :: rest).length (c :: rest) = _
    simp only [List.length_cons, scanAux, h]
    rw [scanAux_fuel rest.length rest'.length rest' (by omega) (le_refl _)]
    rfl

lemma prependPlain_nil (segs : List Segment) : prependPlain [] segs = segs := rfl

lemma consPlain_prependPlain (c : Char) (t : List Char) (segs : List Segment) :
    consPlain c (prependPlain t segs) = prependPlain (c :: t) segs := by
  cases t with
  | nil =>
    cases segs with
    | nil => rfl
    | cons s rest => cases s <;> rfl
  | cons x t' =>
    cases segs with
    | nil => rfl
    | cons s rest => cases s <;> rfl

lemma stripSegs_prependPlain (t : List Char) (segs : List Segment) :
    stripSegs (prependPlain t segs) = t ++ stripSegs segs := by
  cases t with
  | nil => rfl
  | cons x t' =>
    cases segs with
    | nil => simp [prependPlain, stripSegs, stripSeg]
    | cons s rest =>
      cases s with
      | plain u => simp [prependPlain, stripSegs, stripSeg]
      | seg k id u => simp [prependPlain, stripSegs, stripSeg]

lemma matchAt_cons_not_bracket {c : Char} (rest : List Char) (h : c ≠ '[') :
    matchAt (c :: rest) = none := by
  rw [matchAt]
  have hl : leadsWith ("[TRACK_".data) (c :: rest) = none := by
    rw [show ("[TRACK_".data) = '[' :: ("TRACK_".data) from rfl]
    exact leadsWith_cons_ne _ _ (fun he => h he.symm)
  rw [hl]

lemma scan_plain : ∀ (A s : List Char), (∀ c ∈ A, c ≠ '[') →
    markupParse (A ++ s) = prependPlain A (markupParse s) := by
  intro A
  induction A with
  | nil => intro s _; simp [prependPlain]
  | cons c A' ih =>
    intro s h
    have hc : c ≠ '[' := h c (by simp)
    rw [show (c :: A') ++ s = c :: (A' ++ s) from rfl]
    rw [markupParse_cons_none (matchAt_cons_not_bracket (A' ++ s) hc)]
    rw [ih s (fun x hx => h x (by simp [hx]))]
    exact consPlain_prependPlain c A' (markupParse s)

lemma takeWhile_all_append {p : Char → Bool} : ∀ (A : List Char) (x : Char) (t : List Char),
    (∀ c ∈ A, p c = true) → p x = false →
    List.takeWhile p (A ++ x :: t) = A ∧ List.dropWhile p (A ++ x :: t) = x :: t := by
  intro A
  induction A with
  | nil =>
    intro x t _ hx
    constructor
    · rw [List.nil_append, List.takeWhile_cons, if_neg (by simp [hx])]
    · rw [List.nil_append, List.dropWhile_cons, if_neg (by simp [hx])]
  | cons a A' ih =>
    intro x t hall hx
    have ha : p a = true := hall a (by simp)
    obtain ⟨ht, hd⟩ := ih x t (fun c hc => hall c (by simp [hc])) hx
    constructor
    · rw [List.cons_append, List.takeWhile_cons, if_pos ha, ht]
    · rw [List.cons_append, List.dropWhile_cons, if_pos ha, hd]

lemma closeM_cons (k : Kind) (id : List Char) :
    closeM k id = '[' :: (("/TRACK_".data) ++ kindTag k ++ ("_".data) ++ id ++ ("]".data)) := by
  rw [closeM, show ("[/TRACK_".data) = '[' :: ("/TRACK_".data) from rfl]
  simp

lemma findClose_self (close rest : List Char) (h : close ≠ []) :
    findClose close (close ++ rest) = some ([], rest) := by
  cases close with
  | nil => exact absurd rfl h
  | cons x cl =>
    have hl := leadsWith_append_self (x :: cl) rest
    rw [List.cons_append] at hl
    rw [List.cons_append, findClose, hl]

lemma findClose_found (k : Kind) (id : List Char) : ∀ (content rest : List Char),
    (∀ c ∈ content, c ≠ '[' ∧ c ≠ '\n') →
    findClose (closeM k id) (content ++ closeM k id ++ rest) = some (content, rest) := by
  intro content
  induction content with
  | nil =>
    intro rest _
    rw [List.nil_append]
    exact findClose_self _ rest (by rw [closeM_cons]; simp)
  | cons c ct ih =>
    intro rest h
    have hc : c ≠ '[' ∧ c ≠ '\n' := h c (by simp)
    rw [List.cons_append, List.cons_append, findClose]
    have hlw : leadsWith (closeM k id) (c :: (ct ++ closeM k id ++ rest)) = none := by
      rw [closeM_cons]
      exact leadsWith_cons_ne _ _ (fun he => hc.1 he.symm)
    rw [hlw, if_neg hc.2, ih rest (fun x hx => h x (by simp [hx]))]

lemma matchKind_at_tag (k : Kind) (Y : List Char) :
    matchKind (kindTag k ++ ("_".data) ++ Y) = some (k, Y) := by
  cases k with
  | ins =>
    rw [matchKind]
    rw [show kindTag Kind.ins ++ ("_".data) ++ Y = ("INS_".data) ++ Y from by
      simp [kindTag]]
    rw [leadsWith_append_self]
  | del =>
    rw [matchKind]
    rw [show kindTag Kind.del ++ ("_".data) ++ Y = ("DEL_".data) ++ Y from by
      simp [kindTag]]
    have hno : leadsWith ("INS_".data) (("DEL_".data) ++ Y) = none := by
      rw [show ("DEL_".data) ++ Y = 'D' :: (("EL_".data) ++ Y) from rfl]
      rw [show ("INS_".data) = 'I' :: ("NS_".data) from rfl]
      exact leadsWith_cons_ne _ _ (by decide)
    rw [hno, leadsWith_append_self]

lemma matchAt_open (k : Kind) (id X : List Char)
    (hid : id ≠ []) (hidc : ∀ c ∈ id, c ≠ ']') :
    matchAt (openM k id ++ X) =
      match findClose (closeM k id) X with
      | none => none
      | some pr => some (k, id, pr.1, pr.2) := by
  rw [matchAt]
  have h1 : leadsWith ("[TRACK_".data) (openM k id ++ X) =
      some (kindTag k ++ ("_".data) ++ (id ++ ']' :: X)) := by
    rw [show openM k id ++ X =
        ("[TRACK_".data) ++ (kindTag k ++ ("_".data) ++ (id ++ ']' :: X)) from by
      simp [openM]]
    exact leadsWith_append_self _ _
  rw [h1]
  dsimp only
  have h2 := matchKind_at_tag k (id ++ ']' :: X)
  rw [h2]
  dsimp only
  have hall : ∀ c ∈ id, ((fun c => c != ']') c) = true := by
    intro c hc
    simpa using hidc c hc
  obtain ⟨htw, hdw⟩ := takeWhile_all_append id ']' X hall (by decide)
  simp only [htw, hdw]
  have hemp : id.isEmpty = false := by
    cases id with
    | nil => exact absurd rfl hid
    | cons _ _ => rfl
  rw [hemp]
  simp only [Bool.false_eq_true, if_false]
  cases hfc : findClose (closeM k id) X with
  | none => rfl
  | some pr =>
    obtain ⟨a, b⟩ := pr
    rfl

lemma matchAt_marker (k : Kind) (id content rest : List Char)
    (hid : id ≠ []) (hidc : ∀ c ∈ id, c ≠ ']')
    (hcontent : ∀ c ∈ content, c ≠ '[' ∧ c ≠ '\n') :
    matchAt (openM k id ++ content ++ closeM k id ++ rest) =
      some (k, id, content, rest) := by
  have h := matchAt_open k id (content ++ closeM k id ++ rest) hid hidc
  rw [show openM k id ++ content ++ closeM k id ++ rest =
      openM k id ++ (content ++ closeM k id ++ rest) from by simp]
  rw [h, findClose_found k id content rest hcontent]

lemma cutOf_ge_position (e : Change) : e.position ≤ cutOf e := by
  rw [cutOf]; split <;> omega

lemma insertion_ne_deletion : ("insertion".data) ≠ ("deletion".data) := by decide

lemma applyChange_append (A S : List Char) (e : Change) (h : cutOf e ≤ A.length) :
    applyChange (A ++ S) e = applyChange A e ++ S := by
  have hpos : e.position ≤ A.length := le_trans (cutOf_ge_position e) h
  rw [applyChange, applyChange]
  by_cases h1 : e.type = ("insertion".data)
  · rw [if_pos h1, if_pos h1]
    rw [List.take_append_eq_append_take, List.drop_append_eq_append_drop]
    rw [Nat.sub_eq_zero_of_le hpos]
    simp [List.append_assoc]
  · rw [if_neg h1, if_neg h1]
    by_cases h2 : e.type = ("deletion".data)
    · rw [if_pos h2, if_pos h2]
      have hcut : e.position + e.content.length ≤ A.length := by
        rw [cutOf, if_pos h2] at h; exact h
      rw [List.take_append_eq_append_take, List.drop_append_eq_append_drop]
      rw [Nat.sub_eq_zero_of_le hpos, Nat.sub_eq_zero_of_le hcut]
      simp [List.append_assoc]
    · rw [if_neg h2, if_neg h2]

lemma applyChange_length_ge (A : List Char) (e : Change) (h : cutOf e ≤ A.length) :
    A.length ≤ (applyChange A e).length := by
  have hpos : e.position ≤ A.length := le_trans (cutOf_ge_position e) h
  rw [applyChange]
  by_cases h1 : e.type = ("insertion".data)
  · rw [if_pos h1]
    simp only [List.length_append, List.length_take, List.length_drop]
    omega
  · rw [if_neg h1]
    by_cases h2 : e.type = ("deletion".data)
    · rw [if_pos h2]
      have hcut : e.position + e.content.length ≤ A.length := by
        rw [cutOf, if_pos h2] at h; exact h
      simp only [List.length_append, List.length_take, List.length_drop]
      have hcl : 0 < (closeM Kind.del e.id).length := by simp [closeM]
      omega
    · rw [if_neg h2]

lemma applyPlainChange_append (A S : List Char) (e : Change) (h : cutOf e ≤ A.length) :
    applyPlainChange (A ++ S) e = applyPlainChange A e ++ S := by
  have hpos : e.position ≤ A.length := le_trans (cutOf_ge_position e) h
  rw [applyPlainChange, applyPlainChange]
  by_cases h1 : e.type = ("insertion".data)
  · rw [if_pos h1, if_pos h1]
    rw [List.take_append_eq_append_take, List.drop_append_eq_append_drop]
    rw [Nat.sub_eq_zero_of_le hpos]
    simp [List.append_assoc]
  · rw [if_neg h1, if_neg h1]
    by_cases h2 : e.type = ("deletion".data)
    · rw [if_pos h2, if_pos h2]
      have hcut : e.position + e.content.length ≤ A.length := by
        rw [cutOf, if_pos h2] at h; exact h
      rw [List.take_append_eq_append_take, List.drop_append_eq_append_drop]
      rw [Nat.sub_eq_zero_of_le hpos, Nat.sub_eq_zero_of_le hcut]
      simp [List.append_assoc]
    · rw [if_neg h2, if_neg h2]

lemma applyPlainChange_length_ge (A : List Char) (e : Change) (h : cutOf e ≤ A.length) :
    A.length ≤ (applyPlainChange A e).length := by
  have hpos : e.position ≤ A.length := le_trans (cutOf_ge_position e) h
  rw [applyPlainChange]
  by_cases h1 : e.type = ("insertion".data)
  · rw [if_pos h1]
    simp only [List.length_append, List.length_take, List.length_drop]
    omega
  · rw [if_neg h1]
    by_cases h2 : e.type = ("deletion".data)
    · rw [if_pos h2]
      have hcut : e.position + e.content.length ≤ A.length := by
        rw [cutOf, if_pos h2] at h; exact h
      simp only [List.length_append, List.length_take, List.length_drop]
      omega
    · rw [if_neg h2]

lemma foldl_applyChange_append : ∀ (ds : List Change) (A S : List Char),
    (∀ e ∈ ds, cutOf e ≤ A.length) →
    List.foldl applyChange (A ++ S) ds = List.foldl applyChange A ds ++ S := by
  intro ds
  induction ds with
  | nil => intro A S _; rfl
  | cons e ds ih =>
    intro A S h
    have he : cutOf e ≤ A.length := h e (by simp)
    rw [List.foldl_cons, List.foldl_cons, applyChange_append A S e he]
    exact ih (applyChange A e) S
      (fun e' he' => le_trans (h e' (by simp [he'])) (applyChange_length_ge A e he))

lemma foldl_applyPlainChange_append : ∀ (ds : List Change) (A S : List Char),
    (∀ e ∈ ds, cutOf e ≤ A.length) →
    List.foldl applyPlainChange (A ++ S) ds = List.foldl applyPlainChange A ds ++ S := by
  intro ds
  induction ds with
  | nil => intro A S _; rfl
  | cons e ds ih =>
    intro A S h
    have he : cutOf e ≤ A.length := h e (by simp)
    rw [List.foldl_cons, List.foldl_cons, applyPlainChange_append A S e he]
    exact ih (applyPlainChange A e) S
      (fun e' he' => le_trans (h e' (by simp [he'])) (applyPlainChange_length_ge A e he))

lemma descFits_all : ∀ (ds : List Change) (b : Nat), DescFits ds b →
    ∀ e ∈ ds, cutOf e ≤ b := by
  intro ds
  induction ds with
  | nil => intro b _ e he; simp at he
  | cons e0 ds ih =>
    intro b h e he
    obtain ⟨h1, h2⟩ := h
    rcases List.mem_cons.mp he with rfl | hmem
    · exact h1
    · exact le_trans (le_trans (ih e0.position h2 e hmem) (cutOf_ge_position e0)) h1

lemma renderChunks_append (a b : List Chunk) :
    renderChunks (a ++ b) = renderChunks a ++ renderChunks b := by
  induction a with
  | nil => rfl
  | cons c rest ih => simp [renderChunks, ih, List.append_assoc]

lemma stripChunks_append (a b : List Chunk) :
    stripChunks (a ++ b) = stripChunks a ++ stripChunks b := by
  induction a with
  | nil => rfl
  | cons c rest ih => simp [stripChunks, ih, List.append_assoc]

lemma foldl_apply_chunks : ∀ (ds : List Change) (orig : List Char),
    DescFits ds orig.length →
    (∀ e ∈ ds, e.type = ("insertion".data) ∨ e.type = ("deletion".data)) →
    List.foldl applyChange orig ds = renderChunks (chunksOf orig ds) ∧
      List.foldl applyPlainChange orig ds = stripChunks (chunksOf orig ds) := by
  intro ds
  induction ds with
  | nil =>
    intro orig _ _
    constructor <;> simp [chunksOf, renderChunks, stripChunks, renderChunk, stripChunk]
  | cons e ds ih =>
    intro orig hfit hty
    obtain ⟨h1, h2⟩ := hfit
    have hpos : e.position ≤ orig.length := le_trans (cutOf_ge_position e) h1
    have htye := hty e (by simp)
    have htl : (orig.take e.position).length = e.position := by
      rw [List.length_take]; omega
    have hfit' : DescFits ds (orig.take e.position).length := by rw [htl]; exact h2
    have hcut : ∀ e' ∈ ds, cutOf e' ≤ (orig.take e.position).length := by
      rw [htl]; exact descFits_all ds e.position h2
    have hty' : ∀ e' ∈ ds, e'.type = ("insertion".data) ∨ e'.type = ("deletion".data) :=
      fun e' he' => hty e' (by simp [he'])
    obtain ⟨ihr, ihs⟩ := ih (orig.take e.position) hfit' hty'
    constructor
    · rw [List.foldl_cons]
      have hsplit : applyChange orig e =
          orig.take e.position ++ (openM (kindOf e) e.id ++ e.content ++
            closeM (kindOf e) e.id ++ orig.drop (cutOf e)) := by
        rw [applyChange]
        rcases htye with hins | hdel
        · rw [if_pos hins, kindOf, if_pos hins, cutOf,
            if_neg (fun hd => insertion_ne_deletion (hins ▸ hd))]
          simp [List.append_assoc]
        · rw [if_neg (fun hi => insertion_ne_deletion (hi.symm.trans hdel)),
            if_pos hdel, kindOf,
            if_neg (fun hi => insertion_ne_deletion (hi.symm.trans hdel)),
            cutOf, if_pos hdel]
          simp [List.append_assoc]
      rw [hsplit, foldl_applyChange_append ds _ _ hcut, ihr, chunksOf,
        renderChunks_append]
      simp [renderChunks, renderChunk, List.append_assoc]
    · rw [List.foldl_cons]
      have hsplit : applyPlainChange orig e =
          orig.take e.position ++ (e.content ++ orig.drop (cutOf e)) := by
        rw [applyPlainChange]
        rcases htye with hins | hdel
        · rw [if_pos hins, cutOf, if_neg (fun hd => insertion_ne_deletion (hins ▸ hd))]
          simp [List.append_assoc]
        · rw [if_neg (fun hi => insertion_ne_deletion (hi.symm.trans hdel)),
            if_pos hdel, cutOf, if_pos hdel]
          simp [List.append_assoc]
      rw [hsplit, foldl_applyPlainChange_append ds _ _ hcut, ihs, chunksOf,
        stripChunks_append]
      simp [stripChunks, stripChunk, List.append_assoc]

lemma parse_chunks : ∀ (chunks : List Chunk), (∀ c ∈ chunks, ChunkOk c) →
    stripSegs (markupParse (renderChunks chunks)) = stripChunks chunks := by
  intro chunks
  induction chunks with
  | nil => intro _; rfl
  | cons ch rest ih =>
    intro h
    have hch : ChunkOk ch := h ch (by simp)
    have hrest : ∀ c ∈ rest, ChunkOk c := fun c hc => h c (by simp [hc])
    cases ch with
    | plainC t =>
      have ht : ∀ c ∈ t, c ≠ '[' := by
        intro c hc he
        have hmem : '[' ∈ t := he ▸ hc
        have hnb : '[' ∉ t := by simpa [ChunkOk] using hch
        exact hnb hmem
      rw [show renderChunks (Chunk.plainC t :: rest) = t ++ renderChunks rest from rfl]
      rw [scan_plain t (renderChunks rest) ht, stripSegs_prependPlain]
      rw [show stripChunks (Chunk.plainC t :: rest) = t ++ stripChunks rest from rfl]
      rw [ih hrest]
    | editC k id content =>
      have hedit : IdOk id ∧ '[' ∉ content ∧ '\n' ∉ content := by
        simpa [ChunkOk] using hch
      obtain ⟨hidok, hcb, hcn⟩ := hedit
      have hcontent : ∀ c ∈ content, c ≠ '[' ∧ c ≠ '\n' := by
        intro c hc
        constructor
        · intro he; exact hcb (he ▸ hc)
        · intro he; exact hcn (he ▸ hc)
      have hm := matchAt_marker k id content (renderChunks rest) hidok.1
        (fun c hc => (hidok.2 c hc).1) hcontent
      rw [show renderChunks (Chunk.editC k id content :: rest) =
          openM k id ++ content ++ closeM k id ++ renderChunks rest from by
        simp [renderChunks, renderChunk, List.append_assoc]]
      rw [markupParse_cons_some hm]
      rw [show stripChunks (Chunk.editC k id content :: rest) =
          content ++ stripChunks rest from rfl]
      rw [show stripSegs (Segment.seg k id content :: markupParse (renderChunks rest)) =
          content ++ stripSegs (markupParse (renderChunks rest)) from rfl]
      rw [ih hrest]

lemma chunksOf_ok : ∀ (ds : List Change) (orig : List Char), ('[' ∉ orig) →
    (∀ e ∈ ds, ChangeOk e) → ∀ c ∈ chunksOf orig ds, ChunkOk c := by
  intro ds
  induction ds with
  | nil =>
    intro orig horig _ c hc
    rw [chunksOf] at hc
    simp at hc
    subst hc
    exact horig
  | cons e ds ih =>
    intro orig horig hok c hc
    rw [chunksOf] at hc
    rcases List.mem_append.mp hc with hl | hr
    · exact ih (orig.take e.position) (fun hm => horig (List.take_subset _ _ hm))
        (fun e' he' => hok e' (by simp [he'])) c hl
    · have hce : ChangeOk e := hok e (by simp)
      rcases (by simpa using hr : c = Chunk.editC (kindOf e) e.id e.content ∨
          c = Chunk.plainC (orig.drop (cutOf e))) with rfl | rfl
      · exact ⟨hce.2.1, hce.2.2.1, hce.2.2.2⟩
      · exact fun hm => horig (List.drop_subset _ _ hm)

/-- C1 (amended): for every original text free of `[` and every edit batch of
well-formed insertion/deletion records (non-empty ids without brackets or
newlines, contents without `[` or newline) whose position-descending sorted
spans are pairwise disjoint and in bounds (`DescFits`), parsing the
annotated text yields segments that, concatenated with their edit wrapping
stripped, equal the original text with each insertion's content added at
its position and each deletion's recorded content retained in place
(`applyChangesPlain`). -/
theorem claim_C1_roundtrip_amended (original : List Char) (changes : List Change)
    (horig : '[' ∉ original) (hok : ∀ e ∈ changes, ChangeOk e)
    (hfit : DescFits (sortDesc changes) original.length) :
    stripSegs (markupParse (apply_track_changes_to_text original changes)) =
      applyChangesPlain original changes := by
  have hsub : ∀ e ∈ sortDesc changes, e ∈ changes :=
    fun e he => (List.perm_insertionSort posDesc changes).subset he
  have hok' : ∀ e ∈ sortDesc changes, ChangeOk e := fun e he => hok e (hsub e he)
  have hty : ∀ e ∈ sortDesc changes,
      e.type = ("insertion".data) ∨ e.type = ("deletion".data) :=
    fun e he => (hok' e he).1
  obtain ⟨hr, hs⟩ := foldl_apply_chunks (sortDesc changes) original hfit hty
  rw [apply_track_changes_to_text, hr]
  rw [parse_chunks _ (chunksOf_ok (sortDesc changes) original horig hok')]
  rw [applyChangesPlain, hs]

/-- Counterexample to C1 as stated: the batch is a single in-bounds
insertion (non-overlapping spans hold), but its content contains a newline,
so the regex scan (whose `.` does not match newline) leaves the marker pair
unmatched and the sentinel text survives in the plain segment: the
concatenation does not reproduce the text with the insertion applied. -/
theorem claim_C1_counterexample :
    DescFits (sortDesc [mkChange ("1") ("insertion") 1 ("x\ny")]) (("ab".data).length) ∧
      stripSegs (markupParse (apply_track_changes_to_text ("ab".data)
          [mkChange ("1") ("insertion") 1 ("x\ny")])) ≠
        applyChangesPlain ("ab".data) [mkChange ("1") ("insertion") 1 ("x\ny")] := by
  constructor
  · exact ⟨by decide, trivial⟩
  · decide

/-- Witness for the amended C1 on spec section 8's Scenario A/B data: an
insertion and a disjoint deletion round-trip through the marker parse. -/
theorem claim_C1_witness :
    ('[' ∉ ("Hello cruel world".data)) ∧
      (∀ e ∈ [mkChange ("1") ("insertion") 5 (" there"), mkChange ("2") ("deletion") 6 ("cruel ")],
        ChangeOk e) ∧
      DescFits (sortDesc [mkChange ("1") ("insertion") 5 (" there"),
        mkChange ("2") ("deletion") 6 ("cruel ")]) (("Hello cruel world".data).length) ∧
      stripSegs (markupParse (apply_track_changes_to_text ("Hello cruel world".data)
          [mkChange ("1") ("insertion") 5 (" there"), mkChange ("2") ("deletion") 6 ("cruel ")])) =
        applyChangesPlain ("Hello cruel world".data)
          [mkChange ("1") ("insertion") 5 (" there"), mkChange ("2") ("deletion") 6 ("cruel ")] :=
  ⟨by decide, by decide, by decide,
    claim_C1_roundtrip_amended ("Hello cruel world".data)
      [mkChange ("1") ("insertion") 5 (" there"), mkChange ("2") ("deletion") 6 ("cruel ")]
      (by decide) (by decide) (by decide)⟩

lemma openM_cons (k : Kind) (id : List Char) :
    openM k id = '[' :: (("TRACK_".data) ++ kindTag k ++ ("_".data) ++ id ++ ("]".data)) := by
  rw [openM, show ("[TRACK_".data) = '[' :: ("TRACK_".data) from rfl]
  simp

lemma openM_cons2 (k : Kind) (id : List Char) :
    openM k id = '[' :: 'T' :: (("RACK_".data) ++ kindTag k ++ ("_".data) ++ id ++ ("]".data)) := by
  rw [openM, show ("[TRACK_".data) = '[' :: 'T' :: ("RACK_".data) from rfl]
  simp

lemma closeM_cons2 (k : Kind) (id : List Char) :
    closeM k id = '[' :: '/' :: (("TRACK_".data) ++ kindTag k ++ ("_".data) ++ id ++ ("]".data)) := by
  rw [closeM, show ("[/TRACK_".data) = '[' :: '/' :: ("TRACK_".data) from rfl]
  simp

lemma leadsWith_cons2_ne {a b c : Char} (p s : List Char) (h : b ≠ c) :
    leadsWith (a :: b :: p) (a :: c :: s) = none := by
  simp [leadsWith, h]

lemma matchAt_close_start (k : Kind) (id s : List Char) :
    matchAt (closeM k id ++ s) = none := by
  rw [closeM_cons2, List.cons_append, List.cons_append, matchAt]
  have hl : leadsWith ("[TRACK_".data)
      ('[' :: '/' :: ((("TRACK_".data) ++ kindTag k ++ ("_".data) ++ id ++ ("]".data)) ++ s)) =
      none := by
    rw [show ("[TRACK_".data) = '[' :: 'T' :: ("RACK_".data) from rfl]
    exact leadsWith_cons2_ne _ _ (by decide)
  rw [hl]

lemma prependPlain_plain (t u : List Char) :
    prependPlain t [Segment.plain u] = [Segment.plain (t ++ u)] := by
  cases t <;> simp [prependPlain]

lemma consPlain_plain (c : Char) (u : List Char) :
    consPlain c [Segment.plain u] = [Segment.plain (c :: u)] := rfl

lemma markupParse_all_plain (R : List Char) (h : ∀ c ∈ R, c ≠ '[') :
    markupParse R = prependPlain R [] := by
  have := scan_plain R [] h
  rw [List.append_nil] at this
  rw [this]
  rfl

lemma findClose_none_no_bracket (close : List Char) (cl : List Char)
    (hc : close = '[' :: cl) : ∀ (D : List Char), '[' ∉ D →
    findClose close D = none := by
  intro D
  induction D with
  | nil =>
    intro _
    subst hc
    rfl
  | cons c D' ih =>
    intro hb
    have hcb : c ≠ '[' := fun he => hb (by simp [he])
    rw [findClose]
    rw [show close = '[' :: cl from hc]
    rw [leadsWith_cons_ne _ _ (fun he => hcb he.symm)]
    by_cases hcn : c = '\n'
    · rw [if_pos hcn]
    · rw [if_neg hcn, ← hc, ih (fun hm => hb (by simp [hm]))]

lemma findClose_none_of_newline (close : List Char) (cl : List Char)
    (hc : close = '[' :: cl) : ∀ (content R : List Char),
    '[' ∉ content → '\n' ∈ content →
    findClose close (content ++ R) = none := by
  intro content
  induction content with
  | nil => intro R _ h; simp at h
  | cons c ct ih =>
    intro R hb hn
    have hcb : c ≠ '[' := fun he => hb (by simp [he])
    rw [List.cons_append, findClose]
    rw [show close = '[' :: cl from hc]
    rw [leadsWith_cons_ne _ _ (fun he => hcb he.symm)]
    by_cases hcn : c = '\n'
    · rw [if_pos hcn]
    · rw [if_neg hcn, ← hc]
      have hn' : '\n' ∈ ct := by
        rcases List.mem_cons.mp hn with he | hm
        · exact absurd he.symm hcn
        · exact hm
      rw [ih R (fun hm => hb (by simp [hm])) hn']

lemma findClose_skip_one (close : List Char) (x : Char) (s : List Char)
    (hlw : leadsWith close (x :: s) = none) (hx : x ≠ '\n') :
    findClose close (x :: s) =
      Option.map (fun pr => (x :: pr.1, pr.2)) (findClose close s) := by
  rw [findClose, hlw, if_neg hx]
  cases findClose close s with
  | none => rfl
  | some pr => obtain ⟨a, b⟩ := pr; rfl

lemma findClose_skip_plain (close : List Char) (cl : List Char) (hc : close = '[' :: cl) :
    ∀ (D s : List Char), '[' ∉ D → '\n' ∉ D →
    findClose close (D ++ s) =
      Option.map (fun pr => (D ++ pr.1, pr.2)) (findClose close s) := by
  intro D
  induction D with
  | nil =>
    intro s _ _
    rw [List.nil_append]
    cases findClose close s with
    | none => rfl
    | some pr => obtain ⟨a, b⟩ := pr; rfl
  | cons c D' ih =>
    intro s hb hn
    have hcb : c ≠ '[' := fun he => hb (by simp [he])
    have hcn : c ≠ '\n' := fun he => hn (by simp [he])
    rw [List.cons_append]
    rw [findClose_skip_one close c (D' ++ s)
      (by rw [hc]; exact leadsWith_cons_ne _ _ (fun he => hcb he.symm)) hcn]
    rw [ih s (fun hm => hb (by simp [hm])) (fun hm => hn (by simp [hm]))]
    cases findClose close s with
    | none => rfl
    | some pr => obtain ⟨a, b⟩ := pr; rfl

lemma not_bracket_tagid (k : Kind) (id : List Char) (hid : IdOk id) :
    ∀ c ∈ (("TRACK_".data) ++ kindTag k ++ ("_".data) ++ id ++ ("]".data)), c ≠ '[' := by
  intro c hc he
  subst he
  simp only [List.mem_append] at hc
  rcases hc with (((h | h) | h) | h) | h
  · exact absurd h (by decide)
  · revert h; cases k <;> decide
  · exact absurd h (by decide)
  · exact ((hid.2 '[' h).2.1) rfl
  · exact absurd h (by decide)

lemma scan_no_match_block (k1 k2 : Kind) (id1 id2 content B : List Char)
    (hid1 : IdOk id1) (hid2 : IdOk id2) (hcb : '[' ∉ content) (hB : '[' ∉ B)
    (hnone : matchAt (openM k1 id1 ++ (content ++ (closeM k2 id2 ++ B))) = none) :
    markupParse (openM k1 id1 ++ (content ++ (closeM k2 id2 ++ B))) =
      [Segment.plain (openM k1 id1 ++ (content ++ (closeM k2 id2 ++ B)))] := by
  have harg : openM k1 id1 ++ (content ++ (closeM k2 id2 ++ B)) =
      '[' :: (((("TRACK_".data) ++ kindTag k1 ++ ("_".data) ++ id1 ++ ("]".data)) ++ content)
        ++ (closeM k2 id2 ++ B)) := by
    rw [openM_cons]
    simp [List.append_assoc]
  have hnone' : matchAt ('[' :: (((("TRACK_".data) ++ kindTag k1 ++ ("_".data) ++ id1 ++
      ("]".data)) ++ content) ++ (closeM k2 id2 ++ B))) = none := harg ▸ hnone
  rw [harg, markupParse_cons_none hnone']
  have hT1 : ∀ c ∈ ((("TRACK_".data) ++ kindTag k1 ++ ("_".data) ++ id1 ++ ("]".data))
      ++ content), c ≠ '[' := by
    intro c hc
    rcases List.mem_append.mp hc with h | h
    · exact not_bracket_tagid k1 id1 hid1 c h
    · exact fun he => hcb (he ▸ h)
  rw [scan_plain _ _ hT1]
  have harg2 : closeM k2 id2 ++ B =
      '[' :: ('/' :: ((("TRACK_".data) ++ kindTag k2 ++ ("_".data) ++ id2 ++ ("]".data))
        ++ B)) := by
    rw [closeM_cons2]
    simp
  have hm2 : matchAt ('[' :: ('/' :: ((("TRACK_".data) ++ kindTag k2 ++ ("_".data) ++ id2 ++
      ("]".data)) ++ B))) = none := harg2 ▸ matchAt_close_start k2 id2 B
  rw [harg2, markupParse_cons_none hm2]
  have hT2 : ∀ c ∈ ('/' :: ((("TRACK_".data) ++ kindTag k2 ++ ("_".data) ++ id2 ++
      ("]".data)) ++ B)), c ≠ '[' := by
    intro c hc
    rcases List.mem_cons.mp hc with rfl | hm
    · decide
    · rcases List.mem_append.mp hm with h | h
      · exact not_bracket_tagid k2 id2 hid2 c h
      · exact fun he => hB (he ▸ h)
  rw [markupParse_all_plain _ hT2]
  rw [show prependPlain ('/' :: ((("TRACK_".data) ++ kindTag k2 ++ ("_".data) ++ id2 ++
      ("]".data)) ++ B)) [] = [Segment.plain ('/' :: ((("TRACK_".data) ++ kindTag k2 ++
      ("_".data) ++ id2 ++ ("]".data)) ++ B))] from rfl]
  rw [consPlain_plain, prependPlain_plain, consPlain_plain]

/-- C10: an edit whose content contains a newline produces a marker pair the
regex scan cannot match (`.` does not match newline in the lazy content
group), so the sentinel markers and the content are emitted verbatim as
plain run text — the whole paragraph text becomes one plain segment and no
tracked segment is produced. -/
theorem claim_C10_newline_markers_verbatim (A B id content : List Char) (k : Kind)
    (hA : '[' ∉ A) (hB : '[' ∉ B) (hid : IdOk id)
    (hcb : '[' ∉ content) (hnl : '\n' ∈ content) :
    markupParse (A ++ (openM k id ++ (content ++ (closeM k id ++ B)))) =
      [Segment.plain (A ++ (openM k id ++ (content ++ (closeM k id ++ B))))] := by
  have hnone : matchAt (openM k id ++ (content ++ (closeM k id ++ B))) = none := by
    rw [matchAt_open k id _ hid.1 (fun c hc => (hid.2 c hc).1)]
    rw [findClose_none_of_newline (closeM k id) _ (closeM_cons k id) content
      (closeM k id ++ B) hcb hnl]
  have hmid := scan_no_match_block k k id id content B hid hid hcb hB hnone
  rw [scan_plain A _ (fun c hc he => hA (he ▸ hc)), hmid, prependPlain_plain]

/-- Witness for C10: insertion content `"x\ny"` spanning two lines leaves
the marker pair unmatched and everything becomes one plain segment. -/
theorem claim_C10_witness :
    ('[' ∉ ("a".data)) ∧ ('[' ∉ ("b".data)) ∧ IdOk ("1".data) ∧
      ('[' ∉ ("x\ny".data)) ∧ ('\n' ∈ ("x\ny".data)) ∧
      markupParse (("a".data) ++ (openM Kind.ins ("1".data) ++ (("x\ny".data) ++
          (closeM Kind.ins ("1".data) ++ ("b".data))))) =
        [Segment.plain (("a".data) ++ (openM Kind.ins ("1".data) ++ (("x\ny".data) ++
          (closeM Kind.ins ("1".data) ++ ("b".data)))))] :=
  ⟨by decide, by decide, by decide, by decide, by decide,
    claim_C10_newline_markers_verbatim ("a".data) ("b".data) ("1".data) ("x\ny".data)
      Kind.ins (by decide) (by decide) (by decide) (by decide) (by decide)⟩

lemma leadsWith_append_peel (C p s : List Char) :
    leadsWith (C ++ p) (C ++ s) = leadsWith p s := by
  induction C with
  | nil => rfl
  | cons c C' ih => simp [leadsWith, List.cons_append, ih]

lemma ids_bracket_not_lead : ∀ (id1 id2 t : List Char),
    (∀ c ∈ id1, c ≠ ']') → (∀ c ∈ id2, c ≠ ']') → id1 ≠ id2 →
    leadsWith (id1 ++ [']']) (id2 ++ ']' :: t) = none := by
  intro id1
  induction id1 with
  | nil =>
    intro id2 t _ h2 hne
    cases id2 with
    | nil => exact absurd rfl hne
    | cons c id2' =>
      rw [List.nil_append, List.cons_append]
      exact leadsWith_cons_ne _ _ (fun he => (h2 c (by simp)) he.symm)
  | cons a id1' ih =>
    intro id2 t h1 h2 hne
    cases id2 with
    | nil =>
      rw [List.cons_append, List.nil_append]
      exact leadsWith_cons_ne _ _ (h1 a (by simp))
    | cons c id2' =>
      rw [List.cons_append, List.cons_append]
      by_cases hac : a = c
      · subst hac
        rw [leadsWith, if_pos rfl]
        exact ih id2' t (fun x hx => h1 x (by simp [hx]))
          (fun x hx => h2 x (by simp [hx])) (fun he => hne (by rw [he]))
      · simp [leadsWith, hac]

lemma closeM_not_lead_closeM (k1 k2 : Kind) (id1 id2 B : List Char)
    (h1 : ∀ c ∈ id1, c ≠ ']') (h2 : ∀ c ∈ id2, c ≠ ']')
    (hne : k1 ≠ k2 ∨ id1 ≠ id2) :
    leadsWith (closeM k1 id1) (closeM k2 id2 ++ B) = none := by
  by_cases hk : k1 = k2
  · subst hk
    have hid : id1 ≠ id2 := by
      rcases hne with h | h
      · exact absurd rfl h
      · exact h
    rw [closeM, closeM]
    rw [show ("[/TRACK_".data) ++ kindTag k1 ++ ("_".data) ++ id1 ++ ("]".data) =
        (("[/TRACK_".data) ++ kindTag k1 ++ ("_".data)) ++ (id1 ++ [']']) from by simp]
    rw [show (("[/TRACK_".data) ++ kindTag k1 ++ ("_".data) ++ id2 ++ ("]".data)) ++ B =
        (("[/TRACK_".data) ++ kindTag k1 ++ ("_".data)) ++ (id2 ++ ']' :: B) from by simp]
    rw [leadsWith_append_peel]
    exact ids_bracket_not_lead id1 id2 B h1 h2 hid
  · rw [closeM, closeM]
    rw [show ("[/TRACK_".data) ++ kindTag k1 ++ ("_".data) ++ id1 ++ ("]".data) =
        ("[/TRACK_".data) ++ (kindTag k1 ++ (("_".data) ++ id1 ++ ("]".data))) from by simp]
    rw [show (("[/TRACK_".data) ++ kindTag k2 ++ ("_".data) ++ id2 ++ ("]".data)) ++ B =
        ("[/TRACK_".data) ++ (kindTag k2 ++ ((("_".data) ++ id2 ++ ("]".data)) ++ B))
        from by simp]
    rw [leadsWith_append_peel]
    cases k1 <;> cases k2
    · exact absurd rfl hk
    · rw [show kindTag Kind.ins = 'I' :: ("NS".data) from rfl,
        show kindTag Kind.del = 'D' :: ("EL".data) from rfl]
      rw [List.cons_append, List.cons_append]
      exact leadsWith_cons_ne _ _ (by decide)
    · rw [show kindTag Kind.ins = 'I' :: ("NS".data) from rfl,
        show kindTag Kind.del = 'D' :: ("EL".data) from rfl]
      rw [List.cons_append, List.cons_append]
      exact leadsWith_cons_ne _ _ (by decide)
    · exact absurd rfl hk

lemma findClose_mismatch_none (k1 k2 : Kind) (id1 id2 content B : List Char)
    (hid1c : ∀ c ∈ id1, c ≠ ']') (hid2 : IdOk id2)
    (hcb : '[' ∉ content) (hcn : '\n' ∉ content) (hB : '[' ∉ B)
    (hne : k1 ≠ k2 ∨ id1 ≠ id2) :
    findClose (closeM k1 id1) (content ++ (closeM k2 id2 ++ B)) = none := by
  rw [findClose_skip_plain (closeM k1 id1) _ (closeM_cons k1 id1) content _ hcb hcn]
  have hlw : leadsWith (closeM k1 id1) (closeM k2 id2 ++ B) = none :=
    closeM_not_lead_closeM k1 k2 id1 id2 B hid1c (fun c hc => (hid2.2 c hc).1) hne
  have harg2 : closeM k2 id2 ++ B =
      '[' :: ('/' :: ((("TRACK_".data) ++ kindTag k2 ++ ("_".data) ++ id2 ++ ("]".data))
        ++ B)) := by
    rw [closeM_cons2]
    simp
  rw [harg2]
  rw [findClose_skip_one (closeM k1 id1) '[' _ (by rw [← harg2]; exact hlw) (by decide)]
  have hT2 : '[' ∉ ('/' :: ((("TRACK_".data) ++ kindTag k2 ++ ("_".data) ++ id2 ++
      ("]".data)) ++ B)) := by
    intro hm
    rcases List.mem_cons.mp hm with he | hm2
    · exact absurd he (by decide)
    · rcases List.mem_append.mp hm2 with h | h
      · exact not_bracket_tagid k2 id2 hid2 '[' h rfl
      · exact hB h
  rw [findClose_none_no_bracket (closeM k1 id1) _ (closeM_cons k1 id1) _ hT2]
  rfl

lemma closeM_not_lead_openM (k1 k2 : Kind) (id1 id2 s : List Char) :
    leadsWith (closeM k1 id1) (openM k2 id2 ++ s) = none := by
  rw [closeM_cons2, openM_cons2, List.cons_append, List.cons_append]
  exact leadsWith_cons2_ne _ _ (by decide)

lemma findClose_skip_plain_some (close cl : List Char) (hc : close = '[' :: cl)
    (D s X B : List Char) (hb : '[' ∉ D) (hn : '\n' ∉ D)
    (h : findClose close s = some (X, B)) :
    findClose close (D ++ s) = some (D ++ X, B) := by
  rw [findClose_skip_plain close cl hc D s hb hn, h]
  rfl

lemma findClose_skip_one_some (close : List Char) (x : Char) (s X B : List Char)
    (hlw : leadsWith close (x :: s) = none) (hx : x ≠ '\n')
    (h : findClose close s = some (X, B)) :
    findClose close (x :: s) = some (x :: X, B) := by
  rw [findClose_skip_one close x s hlw hx, h]
  rfl

lemma findClose_last_plain (close cl : List Char) (hc : close = '[' :: cl)
    (D B : List Char) (hb : '[' ∉ D) (hn : '\n' ∉ D) :
    findClose close (D ++ (close ++ B)) = some (D, B) := by
  rw [findClose_skip_plain close cl hc D _ hb hn,
    findClose_self close B (by rw [hc]; simp)]
  simp

lemma id_not_bracket (id : List Char) (hid : IdOk id) : '[' ∉ id :=
  fun hm => ((hid.2 '[' hm).2.1) rfl

lemma id_not_newline (id : List Char) (hid : IdOk id) : '\n' ∉ id :=
  fun hm => ((hid.2 '\n' hm).2.2) rfl

lemma kindTag_not_bracket (k : Kind) : '[' ∉ kindTag k := by
  cases k <;> decide

lemma kindTag_not_newline (k : Kind) : '\n' ∉ kindTag k := by
  cases k <;> decide

lemma findClose_nested (k1 k2 : Kind) (id1 id2 pre mid post B : List Char)
    (hid1 : IdOk id1) (hid2 : IdOk id2)
    (hpreb : '[' ∉ pre) (hpren : '\n' ∉ pre)
    (hmidb : '[' ∉ mid) (hmidn : '\n' ∉ mid)
    (hpostb : '[' ∉ post) (hpostn : '\n' ∉ post)
    (hne : k1 ≠ k2 ∨ id1 ≠ id2) :
    findClose (closeM k1 id1)
      (pre ++ (openM k2 id2 ++ (mid ++ (closeM k2 id2 ++ (post ++ (closeM k1 id1 ++ B)))))) =
      some (pre ++ (openM k2 id2 ++ (mid ++ (closeM k2 id2 ++ post))), B) := by
  apply findClose_skip_plain_some _ _ (closeM_cons k1 id1) pre _ _ _ hpreb hpren
  rw [openM_cons k2 id2]
  simp only [List.cons_append, List.append_assoc]
  apply findClose_skip_one_some
  · have h := closeM_not_lead_openM k1 k2 id1 id2
      (mid ++ (closeM k2 id2 ++ (post ++ (closeM k1 id1 ++ B))))
    rw [openM_cons k2 id2] at h
    simpa [List.append_assoc] using h
  · decide
  apply findClose_skip_plain_some _ _ (closeM_cons k1 id1) ("TRACK_".data) _ _ _
    (by decide) (by decide)
  apply findClose_skip_plain_some _ _ (closeM_cons k1 id1) (kindTag k2) _ _ _
    (kindTag_not_bracket k2) (kindTag_not_newline k2)
  apply findClose_skip_plain_some _ _ (closeM_cons k1 id1) ("_".data) _ _ _
    (by decide) (by decide)
  apply findClose_skip_plain_some _ _ (closeM_cons k1 id1) id2 _ _ _
    (id_not_bracket id2 hid2) (id_not_newline id2 hid2)
  apply findClose_skip_plain_some _ _ (closeM_cons k1 id1) ("]".data) _ _ _
    (by decide) (by decide)
  apply findClose_skip_plain_some _ _ (closeM_cons k1 id1) mid _ _ _ hmidb hmidn
  rw [closeM_cons2 k2 id2]
  simp only [List.cons_append, List.append_assoc]
  apply findClose_skip_one_some
  · have h := closeM_not_lead_closeM k1 k2 id1 id2 (post ++ (closeM k1 id1 ++ B))
      (fun c hc => (hid1.2 c hc).1) (fun c hc => (hid2.2 c hc).1) hne
    rw [closeM_cons2 k2 id2] at h
    simpa [List.append_assoc] using h
  · decide
  apply findClose_skip_one_some
  · rw [closeM_cons k1 id1]
    exact leadsWith_cons_ne _ _ (by decide)
  · decide
  apply findClose_skip_plain_some _ _ (closeM_cons k1 id1) ("TRACK_".data) _ _ _
    (by decide) (by decide)
  apply findClose_skip_plain_some _ _ (closeM_cons k1 id1) (kindTag k2) _ _ _
    (kindTag_not_bracket k2) (kindTag_not_newline k2)
  apply findClose_skip_plain_some _ _ (closeM_cons k1 id1) ("_".data) _ _ _
    (by decide) (by decide)
  apply findClose_skip_plain_some _ _ (closeM_cons k1 id1) id2 _ _ _
    (id_not_bracket id2 hid2) (id_not_newline id2 hid2)
  apply findClose_skip_plain_some _ _ (closeM_cons k1 id1) ("]".data) _ _ _
    (by decide) (by decide)
  exact findClose_last_plain _ _ (closeM_cons k1 id1) post B hpostb hpostn

lemma matchAt_nested (k1 k2 : Kind) (id1 id2 pre mid post B : List Char)
    (hid1 : IdOk id1) (hid2 : IdOk id2)
    (hpreb : '[' ∉ pre) (hpren : '\n' ∉ pre)
    (hmidb : '[' ∉ mid) (hmidn : '\n' ∉ mid)
    (hpostb : '[' ∉ post) (hpostn : '\n' ∉ post)
    (hne : k1 ≠ k2 ∨ id1 ≠ id2) :
    matchAt (openM k1 id1 ++ (pre ++ (openM k2 id2 ++ (mid ++ (closeM k2 id2 ++
        (post ++ (closeM k1 id1 ++ B))))))) =
      some (k1, id1, pre ++ (openM k2 id2 ++ (mid ++ (closeM k2 id2 ++ post))), B) := by
  rw [matchAt_open k1 id1 _ hid1.1 (fun c hc => (hid1.2 c hc).1)]
  rw [findClose_nested k1 k2 id1 id2 pre mid post B hid1 hid2 hpreb hpren hmidb hmidn
    hpostb hpostn hne]

/-- C6 (amended): the scanner raises no error on malformed marker input.
A marker pair whose closing marker mismatches the opening marker in KIND or
id is simply not matched: with no other marker in range the whole text
becomes one verbatim plain segment (first conjunct).  A well-formed marker
pair opened inside another pair's span is not a parse error either: the
lazy scan absorbs the inner pair verbatim into the outer segment's text
(second conjunct). -/
theorem claim_C6_malformed_markers_amended (A B content pre mid post id1 id2 : List Char)
    (k1 k2 : Kind)
    (hA : '[' ∉ A) (hB : '[' ∉ B) (hid1 : IdOk id1) (hid2 : IdOk id2)
    (hcb : '[' ∉ content) (hcn : '\n' ∉ content)
    (hpreb : '[' ∉ pre) (hpren : '\n' ∉ pre)
    (hmidb : '[' ∉ mid) (hmidn : '\n' ∉ mid)
    (hpostb : '[' ∉ post) (hpostn : '\n' ∉ post)
    (hne : k1 ≠ k2 ∨ id1 ≠ id2) :
    markupParse (A ++ (openM k1 id1 ++ (content ++ (closeM k2 id2 ++ B)))) =
        [Segment.plain (A ++ (openM k1 id1 ++ (content ++ (closeM k2 id2 ++ B))))] ∧
      markupParse (A ++ (openM k1 id1 ++ (pre ++ (openM k2 id2 ++ (mid ++ (closeM k2 id2 ++
          (post ++ (closeM k1 id1 ++ B)))))))) =
        prependPlain A (Segment.seg k1 id1
          (pre ++ (openM k2 id2 ++ (mid ++ (closeM k2 id2 ++ post)))) :: markupParse B) := by
  constructor
  · have hnone : matchAt (openM k1 id1 ++ (content ++ (closeM k2 id2 ++ B))) = none := by
      rw [matchAt_open k1 id1 _ hid1.1 (fun c hc => (hid1.2 c hc).1)]
      rw [findClose_mismatch_none k1 k2 id1 id2 content B
        (fun c hc => (hid1.2 c hc).1) hid2 hcb hcn hB hne]
    have hmid := scan_no_match_block k1 k2 id1 id2 content B hid1 hid2 hcb hB hnone
    rw [scan_plain A _ (fun c hc he => hA (he ▸ hc)), hmid, prependPlain_plain]
  · rw [scan_plain A _ (fun c hc he => hA (he ▸ hc))]
    rw [markupParse_cons_some (matchAt_nested k1 k2 id1 id2 pre mid post B hid1 hid2
      hpreb hpren hmidb hmidn hpostb hpostn hne)]

/-- Counterexample to C6 as stated: on a mismatched closer
(`[TRACK_INS_1]x[/TRACK_DEL_1]`) the parser reports no error and produces a
segment sequence (one verbatim plain segment); on a marker opened inside
another marker's span the parser again reports no error and produces a
segment sequence (the inner pair absorbed into the outer tracked segment's
text). -/
theorem claim_C6_counterexample :
    markupParse ("[TRACK_INS_1]x[/TRACK_DEL_1]".data) =
        [Segment.plain ("[TRACK_INS_1]x[/TRACK_DEL_1]".data)] ∧
      markupParse ("[TRACK_INS_1]a[TRACK_INS_2]b[/TRACK_INS_2]c[/TRACK_INS_1]".data) =
        [Segment.seg Kind.ins ("1".data)
          ("a[TRACK_INS_2]b[/TRACK_INS_2]c".data)] := by
  constructor
  · decide
  · decide

/-- Witness for the amended C6 at concrete inputs: kinds mismatch in the
first conjunct (INS opened, DEL closed), distinct ids nest in the second. -/
theorem claim_C6_witness :
    (("1".data) ≠ ("2".data)) ∧
      markupParse (("p".data) ++ (openM Kind.ins ("1".data) ++ (("x".data) ++
          (closeM Kind.del ("1".data) ++ ("q".data))))) =
        [Segment.plain (("p".data) ++ (openM Kind.ins ("1".data) ++ (("x".data) ++
          (closeM Kind.del ("1".data) ++ ("q".data)))))] ∧
      markupParse (("p".data) ++ (openM Kind.ins ("1".data) ++ (("u".data) ++
          (openM Kind.ins ("2".data) ++ (("v".data) ++ (closeM Kind.ins ("2".data) ++
          (("w".data) ++ (closeM Kind.ins ("1".data) ++ ("q".data))))))))) =
        prependPlain ("p".data) (Segment.seg Kind.ins ("1".data)
          (("u".data) ++ (openM Kind.ins ("2".data) ++ (("v".data) ++
            (closeM Kind.ins ("2".data) ++ ("w".data))))) ::
          markupParse ("q".data)) :=
  ⟨by decide,
    (claim_C6_malformed_markers_amended ("p".data) ("q".data) ("x".data) ("u".data)
      ("v".data) ("w".data) ("1".data) ("1".data) Kind.ins Kind.del (by decide) (by decide)
      (by decide) (by decide) (by decide) (by decide) (by decide) (by decide) (by decide)
      (by decide) (by decide) (by decide) (Or.inl (by decide))).1,
    (claim_C6_malformed_markers_amended ("p".data) ("q".data) ("x".data) ("u".data)
      ("v".data) ("w".data) ("1".data) ("2".data) Kind.ins Kind.ins (by decide) (by decide)
      (by decide) (by decide) (by decide) (by decide) (by decide) (by decide) (by decide)
      (by decide) (by decide) (by decide) (Or.inr (by decide))).2⟩

lemma encodeParasSkip_eq_filter (changes : List Change) (now : List Char) :
    ∀ (ps : List (List Char)),
    encodeParasSkip changes now ps =
      encodeParas changes now (ps.filter (fun p => !(stripEmptyPy p))) := by
  intro ps
  induction ps with
  | nil => rfl
  | cons p ps ih =>
    rw [encodeParasSkip]
    by_cases h : stripEmptyPy p = true
    · rw [if_pos h, ih, List.filter_cons]
      rw [show (!(stripEmptyPy p)) = false from by rw [h]; rfl]
      rw [if_neg (by simp)]
    · rw [if_neg h, List.filter_cons]
      rw [show (!(stripEmptyPy p)) = true from by
        rw [Bool.not_eq_true] at h; rw [h]; rfl]
      rw [if_pos (by simp)]
      rw [encodeParas, ih]

/-- C7 (amended): paragraph segmentation splits the text
`add_tracked_content` receives — which in the pipeline of
`create_track_changes_document` is the ANNOTATED text produced by
`apply_track_changes_to_text`, not the raw text as it was before splicing — on
blank-line boundaries (`\n\n`) before the per-paragraph marker parse, and
every paragraph whose trimmed content is empty is dropped: the document is
exactly the encoding of the blank-filtered split of the annotated text. -/
theorem claim_C7_split_annotated_amended (original : List Char) (changes : List Change)
    (now : List Char) :
    create_track_changes_document original changes now =
      encodeParas changes now
        ((splitOn2NL [] (apply_track_changes_to_text original changes)).filter
          (fun p => !(stripEmptyPy p))) := by
  rw [create_track_changes_document, add_tracked_content]
  exact encodeParasSkip_eq_filter changes now _

/-- Counterexample to C7 as stated: the raw text `"a\n\nb"` splits into two
paragraphs, but an insertion at position 2 (between the two line breaks)
destroys the blank-line boundary in the annotated text, so the pipeline
produces a single paragraph node — the split is applied to the annotated
text, not to the raw text as it was before splicing. -/
theorem claim_C7_counterexample :
    (Except.toOption (create_track_changes_document ("a\n\nb".data)
        [mkChangeMeta ("1") ("insertion") 2 ("x") ("A") ("D")] ("now".data))).map List.length =
        some 1 ∧
      ((splitOn2NL [] ("a\n\nb".data)).filter (fun p => !(stripEmptyPy p))).length = 2 := by
  constructor
  · decide
  · decide
